import Mathlib

/-!
Verification of the microkv storage library against its specification.

The development shallowly embeds the value codec (src/helpers.rs), the
namespace store (src/namespace.rs), the store registry and reload logic
(src/history/v030.rs), persistence (src/helpers.rs persist_serialize) and
the migration chain (src/migrate.rs, src/migrate/mod.rs).

Bytes are modelled as `Nat` (values below 256 in real data); Rust strings
appear as Lean `String` and JSON text as lists of unicode scalar values.
External library primitives (bincode, serde_json, sodiumoxide secretbox)
are modelled executably: bincode as the length-prefixed little-endian
layout it produces, serde_json as a verified serializer/parser pair over a
JSON value type, and secretbox as an ideal authenticated stream cipher.
-/

namespace MicroKV

/-! ## Byte-level primitives (bincode layout) -/

/-- Little-endian encoding of a u64 length field, as bincode emits for
string, vector and map lengths. -/
def u64le (n : Nat) : List Nat :=
  [n % 256, n / 256 % 256, n / 256 ^ 2 % 256, n / 256 ^ 3 % 256,
   n / 256 ^ 4 % 256, n / 256 ^ 5 % 256, n / 256 ^ 6 % 256, n / 256 ^ 7 % 256]

/-- Decode eight little-endian bytes into a u64 value, returning the rest. -/
def readU64 : List Nat → Option (Nat × List Nat)
  | b0 :: b1 :: b2 :: b3 :: b4 :: b5 :: b6 :: b7 :: rest =>
    some (b0 + 256 * (b1 + 256 * (b2 + 256 * (b3 + 256 *
      (b4 + 256 * (b5 + 256 * (b6 + 256 * b7)))))), rest)
  | _ => none

/-- Read exactly `n` bytes from a list, returning them and the remainder. -/
def readBytes (n : Nat) (l : List Nat) : Option (List Nat × List Nat) :=
  if n ≤ l.length then some (l.take n, l.drop n) else none

theorem readU64_u64le (n : Nat) (rest : List Nat) (h : n < 2 ^ 64) :
    readU64 (u64le n ++ rest) = some (n, rest) := by
  simp only [u64le, List.cons_append, List.nil_append, readU64]
  congr 1
  congr 1
  omega

theorem readBytes_exact (l rest : List Nat) :
    readBytes l.length (l ++ rest) = some (l, rest) := by
  simp [readBytes, List.take_left, List.drop_left]

/-! ## Ideal AEAD model of sodiumoxide secretbox

Modelled from the spec: the sodiumoxide `secretbox` primitive
(XSalsa20-Poly1305, the crate is an external dependency) seals a message
under a 32-byte key and a 24-byte public nonce, producing ciphertext plus
an authentication tag, and `open` rejects a ciphertext whose tag does not
authenticate under the given key and nonce.  The model realises the ideal
functionality: a stream cipher (xor with a keystream derived from key and
nonce) preceded by a tag that binds exactly the key and nonce, so
authentication fails precisely when they differ. -/

/-- Fold a byte list into a mixing seed for the model keystream. -/
def mix (seed : Nat) (l : List Nat) : Nat :=
  l.foldl (fun a b => a * 31 + b) seed

/-- Model keystream byte at position `i` under `key` and `nonce`. -/
def keystream (key nonce : List Nat) (i : Nat) : Nat :=
  (mix 7 key + mix 11 nonce + 131 * i) % 256

/-- Xor a message with the keystream, starting at index `i`. -/
def streamXorAux (key nonce : List Nat) : Nat → List Nat → List Nat
  | _, [] => []
  | i, b :: t => (b ^^^ keystream key nonce i) :: streamXorAux key nonce (i + 1) t

/-- Stream-cipher layer of the secretbox model; an involution. -/
def streamXor (key nonce m : List Nat) : List Nat :=
  streamXorAux key nonce 0 m

theorem streamXorAux_involutive (key nonce : List Nat) (m : List Nat) :
    ∀ i, streamXorAux key nonce i (streamXorAux key nonce i m) = m := by
  induction m with
  | nil => intro i; rfl
  | cons b t ih =>
    intro i
    simp only [streamXorAux, ih]
    congr 1
    rw [Nat.xor_assoc, Nat.xor_self, Nat.xor_zero]

theorem streamXor_involutive (key nonce m : List Nat) :
    streamXor key nonce (streamXor key nonce m) = m :=
  streamXorAux_involutive key nonce m 0

/-- Authentication tag of the secretbox model: binds key and nonce. -/
def seal_tag (key nonce : List Nat) : List Nat :=
  key.length :: key ++ nonce.length :: nonce

/-- Model of `secretbox::seal`: tag followed by the encrypted message. -/
def secretbox_seal (key nonce m : List Nat) : List Nat :=
  seal_tag key nonce ++ streamXor key nonce m

/-- Model of `secretbox::open`: verify the tag, then decrypt. -/
def secretbox_open (key nonce c : List Nat) : Option (List Nat) :=
  let t := seal_tag key nonce
  if c.take t.length = t then some (streamXor key nonce (c.drop t.length)) else none

theorem secretbox_open_seal (key nonce m : List Nat) :
    secretbox_open key nonce (secretbox_seal key nonce m) = some (streamXor key nonce (streamXor key nonce m)) := by
  simp [secretbox_open, secretbox_seal, List.take_left, List.drop_left]

theorem secretbox_roundtrip (key nonce m : List Nat) :
    secretbox_open key nonce (secretbox_seal key nonce m) = some m := by
  rw [secretbox_open_seal, streamXor_involutive]

theorem seal_tag_length (key nonce : List Nat) :
    (seal_tag key nonce).length = key.length + nonce.length + 2 := by
  simp [seal_tag]; omega

theorem secretbox_open_wrong_key (k1 k2 nonce m : List Nat)
    (hlen : k1.length = k2.length) (hne : k1 ≠ k2) :
    secretbox_open k2 nonce (secretbox_seal k1 nonce m) = none := by
  have htag : seal_tag k1 nonce ≠ seal_tag k2 nonce := by
    intro h
    apply hne
    have h2 : k1.length :: (k1 ++ nonce.length :: nonce) =
        k2.length :: (k2 ++ nonce.length :: nonce) := by
      simpa [seal_tag] using h
    have h3 := List.tail_eq_of_cons_eq h2
    exact List.append_inj_left h3 hlen
  have hlen2 : (seal_tag k2 nonce).length = (seal_tag k1 nonce).length := by
    rw [seal_tag_length, seal_tag_length, hlen]
  simp only [secretbox_open, secretbox_seal]
  rw [hlen2, List.take_left]
  simp only [ite_eq_right_iff]
  intro h
  exact absurd h.symm (fun h2 => htag h2.symm)

/-! ## JSON value model (serde_json)

Modelled from the spec: the codec canonicalises a value through
`serde_json::to_value(v).to_string()` and reads it back with
`serde_json::from_str` (serde_json is an external dependency).  JSON values
are modelled with integer numbers (the library also supports floats, which
are outside this embedding) and strings as lists of unicode scalar values;
the serializer emits the compact form `to_string` produces and the parser
is a recursive-descent reader of that grammar. -/

mutual
inductive JValue where
  | null : JValue
  | bool (b : Bool) : JValue
  | num (n : Int) : JValue
  | str (s : List Nat) : JValue
  | arr (elems : JArray) : JValue
  | obj (fields : JObject) : JValue
deriving DecidableEq
inductive JArray where
  | nil : JArray
  | cons (hd : JValue) (tl : JArray) : JArray
deriving DecidableEq
inductive JObject where
  | nil : JObject
  | cons (key : List Nat) (val : JValue) (tl : JObject) : JObject
deriving DecidableEq
end

/-- Lowercase hexadecimal digit character for a value below 16. -/
def hexDigit (n : Nat) : Nat :=
  if n < 10 then 48 + n else 87 + n

/-- Escape one character of a JSON string the way serde_json does:
quote and backslash get two-character escapes, the five named control
characters get theirs, remaining control characters become a
unicode escape, and everything else is emitted raw. -/
def escapeChar (c : Nat) : List Nat :=
  if c = 34 then [92, 34]
  else if c = 92 then [92, 92]
  else if c = 8 then [92, 98]
  else if c = 9 then [92, 116]
  else if c = 10 then [92, 110]
  else if c = 12 then [92, 102]
  else if c = 13 then [92, 114]
  else if c < 32 then [92, 117, 48, 48, hexDigit (c / 16), hexDigit (c % 16)]
  else [c]

/-- Escape a whole JSON string body. -/
def escapeString (s : List Nat) : List Nat :=
  s.flatMap escapeChar

/-- A JSON string literal: quote, escaped body, quote. -/
def jstrLit (s : List Nat) : List Nat :=
  34 :: escapeString s ++ [34]

/-- Decimal digits of a natural number, most significant first. -/
def natDecimal (n : Nat) : List Nat :=
  if n < 10 then [48 + n]
  else natDecimal (n / 10) ++ [48 + n % 10]
decreasing_by exact Nat.div_lt_self (by omega) (by omega)

/-- Decimal text of an integer, with a leading minus sign when negative. -/
def intDecimal (n : Int) : List Nat :=
  if n < 0 then 45 :: natDecimal n.natAbs else natDecimal n.toNat

mutual
/-- Compact serialization of a JSON value (serde_json `to_string`). -/
def jserValue : JValue → List Nat
  | .null => [110, 117, 108, 108]
  | .bool true => [116, 114, 117, 101]
  | .bool false => [102, 97, 108, 115, 101]
  | .num n => intDecimal n
  | .str s => jstrLit s
  | .arr a => 91 :: (jserArray a ++ [93])
  | .obj o => 123 :: (jserObject o ++ [125])
/-- Comma-separated serialization of array elements. -/
def jserArray : JArray → List Nat
  | .nil => []
  | .cons h .nil => jserValue h
  | .cons h (.cons h2 t) => jserValue h ++ 44 :: jserArray (.cons h2 t)
/-- Comma-separated serialization of object fields. -/
def jserObject : JObject → List Nat
  | .nil => []
  | .cons k v .nil => jstrLit k ++ 58 :: jserValue v
  | .cons k v (.cons k2 v2 t) =>
    jstrLit k ++ 58 :: (jserValue v ++ 44 :: jserObject (.cons k2 v2 t))
end

mutual
/-- Parser fuel bound for a value: its constructor count. -/
def jsize : JValue → Nat
  | .null | .bool _ | .num _ | .str _ => 1
  | .arr a => 1 + jsizeArr a
  | .obj o => 1 + jsizeObj o
def jsizeArr : JArray → Nat
  | .nil => 0
  | .cons h t => 1 + jsize h + jsizeArr t
def jsizeObj : JObject → Nat
  | .nil => 0
  | .cons _ v t => 1 + jsize v + jsizeObj t
end

/-- Is the character an ASCII decimal digit. -/
def isDigit (c : Nat) : Bool :=
  48 ≤ c && c ≤ 57

/-- Value of one hexadecimal digit character, if it is one. -/
def hexVal (c : Nat) : Option Nat :=
  if 48 ≤ c ∧ c ≤ 57 then some (c - 48)
  else if 97 ≤ c ∧ c ≤ 102 then some (c - 87)
  else if 65 ≤ c ∧ c ≤ 70 then some (c - 55)
  else none

/-- Replacement for a two-character escape sequence. -/
def escCode (e : Nat) : Option Nat :=
  if e = 34 then some 34
  else if e = 92 then some 92
  else if e = 47 then some 47
  else if e = 98 then some 8
  else if e = 102 then some 12
  else if e = 110 then some 10
  else if e = 114 then some 13
  else if e = 116 then some 9
  else none

/-- Split off four leading characters (the digits of a unicode escape). -/
def take4 : List Nat → Option (Nat × Nat × Nat × Nat × List Nat)
  | h1 :: h2 :: h3 :: h4 :: rest => some (h1, h2, h3, h4, rest)
  | _ => none

/-- Consume an expected literal character sequence. -/
def expectChars : List Nat → List Nat → Option (List Nat)
  | [], l => some l
  | _ :: _, [] => none
  | p :: ps, c :: cs => if c = p then expectChars ps cs else none

mutual
/-- Parse a JSON string body up to and including the closing quote,
decoding escapes; raw control characters are rejected.  The fuel only
needs to exceed the number of decoded characters. -/
def parseStringBody : Nat → List Nat → Option (List Nat × List Nat)
  | 0, _ => none
  | _ + 1, [] => none
  | fuel + 1, c :: rest =>
    if c = 34 then some ([], rest)
    else if c = 92 then parseEscape fuel rest
    else if c < 32 then none
    else do
      let p ← parseStringBody fuel rest
      some (c :: p.1, p.2)
termination_by fuel l => (fuel, 0)
/-- Parse the character sequence after a backslash. -/
def parseEscape : Nat → List Nat → Option (List Nat × List Nat)
  | _, [] => none
  | fuel, e :: rest2 =>
    if e = 117 then
      match take4 rest2 with
      | none => none
      | some (h1, h2, h3, h4, rest3) => do
        let a ← hexVal h1
        let b ← hexVal h2
        let g ← hexVal h3
        let d ← hexVal h4
        let p ← parseStringBody fuel rest3
        some ((4096 * a + 256 * b + 16 * g + d) :: p.1, p.2)
    else do
      let x ← escCode e
      let p ← parseStringBody fuel rest2
      some (x :: p.1, p.2)
termination_by fuel l => (fuel, 1)
end

/-- Accumulate decimal digits; stops at the first non-digit. -/
def parseDigitsAux : Nat → List Nat → Nat × List Nat
  | acc, [] => (acc, [])
  | acc, c :: rest =>
    if isDigit c then parseDigitsAux (acc * 10 + (c - 48)) rest else (acc, c :: rest)

/-- Parse an integer JSON number: optional minus sign, then digits. -/
def parseNumber (l : List Nat) : Option (Int × List Nat) :=
  match l with
  | [] => none
  | c :: rest =>
    if c = 45 then
      match rest with
      | [] => none
      | d :: rest2 =>
        if isDigit d then
          let p := parseDigitsAux (d - 48) rest2
          some (-(p.1 : Int), p.2)
        else none
    else if isDigit c then
      let p := parseDigitsAux (c - 48) rest
      some ((p.1 : Int), p.2)
    else none

mutual
/-- Fuel-bounded recursive-descent parser for a JSON value. -/
def parseJValue : Nat → List Nat → Option (JValue × List Nat)
  | 0, _ => none
  | _ + 1, [] => none
  | fuel + 1, c :: rest =>
    if c = 110 then
      match expectChars [117, 108, 108] rest with
      | some r => some (.null, r)
      | none => none
    else if c = 116 then
      match expectChars [114, 117, 101] rest with
      | some r => some (.bool true, r)
      | none => none
    else if c = 102 then
      match expectChars [97, 108, 115, 101] rest with
      | some r => some (.bool false, r)
      | none => none
    else if c = 34 then
      (fun p => (.str p.1, p.2)) <$> parseStringBody (rest.length + 1) rest
    else if c = 91 then parseArrBody fuel rest
    else if c = 123 then parseObjBody fuel rest
    else
      (fun p => (.num p.1, p.2)) <$> parseNumber (c :: rest)
termination_by fuel l => (fuel, 1)
/-- Parse what follows an opening bracket: empty array or elements. -/
def parseArrBody : Nat → List Nat → Option (JValue × List Nat)
  | _, [] => none
  | fuel, d :: r =>
    if d = 93 then some (.arr .nil, r)
    else (fun p => (.arr p.1, p.2)) <$> parseJArrayElems fuel (d :: r)
termination_by fuel l => (fuel, 1)
/-- Parse what follows an opening brace: empty object or fields. -/
def parseObjBody : Nat → List Nat → Option (JValue × List Nat)
  | _, [] => none
  | fuel, d :: r =>
    if d = 125 then some (.obj .nil, r)
    else (fun p => (.obj p.1, p.2)) <$> parseJObjectFields fuel (d :: r)
termination_by fuel l => (fuel, 1)
/-- Parse one or more comma-separated array elements and the closing bracket. -/
def parseJArrayElems : Nat → List Nat → Option (JArray × List Nat)
  | 0, _ => none
  | fuel + 1, l => do
    let (v, r) ← parseJValue fuel l
    match r with
    | [] => none
    | d :: r2 =>
      if d = 44 then do
        let (tl, r3) ← parseJArrayElems fuel r2
        some (.cons v tl, r3)
      else if d = 93 then some (.cons v .nil, r2)
      else none
termination_by fuel l => (fuel, 0)
/-- Parse one or more comma-separated object fields and the closing brace. -/
def parseJObjectFields : Nat → List Nat → Option (JObject × List Nat)
  | 0, _ => none
  | fuel + 1, l =>
    match l with
    | [] => none
    | q :: r0 =>
      if q = 34 then do
        let (k, r1) ← parseStringBody (r0.length + 1) r0
        match r1 with
        | [] => none
        | d :: r2 =>
          if d = 58 then do
            let (v, r3) ← parseJValue fuel r2
            match r3 with
            | [] => none
            | d2 :: r4 =>
              if d2 = 44 then do
                let (tl, r5) ← parseJObjectFields fuel r4
                some (.cons k v tl, r5)
              else if d2 = 125 then some (.cons k v .nil, r4)
              else none
          else none
      else none
termination_by fuel l => (fuel, 0)
end

/-- Parse a complete JSON document, requiring all input consumed
(serde_json `from_str` rejects trailing characters). -/
def jsonFromStr (s : List Nat) : Option JValue :=
  match parseJValue (s.length + 1) s with
  | some (v, []) => some v
  | _ => none

/-- True when the list does not start with a decimal digit, so a parsed
number token cannot be extended into it. -/
def headNonDigit : List Nat → Bool
  | [] => true
  | c :: _ => !(isDigit c)

/-! ### Round-trip of the JSON codec -/

theorem parseDigitsAux_stop (acc : Nat) (l : List Nat) (h : headNonDigit l = true) :
    parseDigitsAux acc l = (acc, l) := by
  cases l with
  | nil => rfl
  | cons c t =>
    simp only [headNonDigit, Bool.not_eq_true'] at h
    simp [parseDigitsAux, h]

theorem natDecimal_head (m : Nat) : ∃ d t, natDecimal m = (48 + d) :: t ∧ d < 10 := by
  induction m using Nat.strong_induction_on with
  | _ m ih =>
    rw [natDecimal]
    by_cases h : m < 10
    · exact ⟨m, [], by simp [h], h⟩
    · obtain ⟨d, t, hdt, hd⟩ := ih (m / 10) (Nat.div_lt_self (by omega) (by omega))
      exact ⟨d, t ++ [48 + m % 10], by simp [h, hdt], hd⟩

theorem parseDigitsAux_natDecimal (m : Nat) : ∀ (acc : Nat) (rest : List Nat),
    parseDigitsAux acc (natDecimal m ++ rest) =
      parseDigitsAux (acc * 10 ^ (natDecimal m).length + m) rest := by
  induction m using Nat.strong_induction_on with
  | _ m ih =>
    intro acc rest
    rw [natDecimal]
    by_cases h : m < 10
    · simp only [if_pos h, List.cons_append, List.nil_append, List.length_cons,
        List.length_nil]
      have hd : isDigit (48 + m) = true := by
        simp only [isDigit, Bool.and_eq_true, decide_eq_true_eq]; omega
      simp only [parseDigitsAux, hd, if_pos]
      congr 1
      omega
    · simp only [if_neg h, List.append_assoc, List.cons_append, List.nil_append]
      rw [ih (m / 10) (Nat.div_lt_self (by omega) (by omega))]
      have hd : isDigit (48 + m % 10) = true := by
        simp only [isDigit, Bool.and_eq_true, decide_eq_true_eq]; omega
      simp only [parseDigitsAux, hd, if_pos, List.length_append, List.length_cons,
        List.length_nil]
      congr 1
      have h10 : 10 ^ ((natDecimal (m / 10)).length + (0 + 1)) =
          10 ^ (natDecimal (m / 10)).length * 10 := by ring
      rw [h10]
      have h11 : acc * (10 ^ (natDecimal (m / 10)).length * 10) =
          acc * 10 ^ (natDecimal (m / 10)).length * 10 := by ring
      rw [h11]
      generalize acc * 10 ^ (natDecimal (m / 10)).length = B
      have : m = 10 * (m / 10) + m % 10 := by omega
      omega

theorem parseDigitsAux_natDecimal_full (m : Nat) (rest : List Nat)
    (h : headNonDigit rest = true) :
    parseDigitsAux 0 (natDecimal m ++ rest) = (m, rest) := by
  rw [parseDigitsAux_natDecimal, parseDigitsAux_stop _ _ h]
  simp

theorem parseNumber_intDecimal (n : Int) (rest : List Nat)
    (h : headNonDigit rest = true) :
    parseNumber (intDecimal n ++ rest) = some (n, rest) := by
  obtain ⟨d, t, hdt, hd10⟩ := natDecimal_head n.natAbs
  by_cases hn : n < 0
  · have he : intDecimal n ++ rest = 45 :: ((48 + d) :: (t ++ rest)) := by
      simp [intDecimal, hn, hdt]
    rw [he]
    have hdig : isDigit (48 + d) = true := by
      simp only [isDigit, Bool.and_eq_true, decide_eq_true_eq]; omega
    simp only [parseNumber, if_pos rfl, hdig, if_pos]
    have hfull : parseDigitsAux 0 (natDecimal n.natAbs ++ rest) = (n.natAbs, rest) :=
      parseDigitsAux_natDecimal_full _ _ h
    rw [hdt] at hfull
    simp only [List.cons_append, parseDigitsAux, hdig, if_pos, List.append_eq] at hfull
    have hacc : (0 : Nat) * 10 + (48 + d - 48) = 48 + d - 48 := by omega
    rw [hacc] at hfull
    rw [hfull]
    have : -((n.natAbs : Int)) = n := by omega
    rw [this]
  · have hn2 : ¬((n.toNat : Int) < 0) := by omega
    have habs : n.toNat = n.natAbs := by omega
    have he : intDecimal n ++ rest = (48 + d) :: (t ++ rest) := by
      simp [intDecimal, hn, habs, hdt]
    rw [he]
    have hdig : isDigit (48 + d) = true := by
      simp only [isDigit, Bool.and_eq_true, decide_eq_true_eq]; omega
    have hne45 : ¬(48 + d = 45) := by omega
    simp only [parseNumber, if_neg hne45, hdig, if_pos]
    have hfull : parseDigitsAux 0 (natDecimal n.natAbs ++ rest) = (n.natAbs, rest) :=
      parseDigitsAux_natDecimal_full _ _ h
    rw [hdt] at hfull
    simp only [List.cons_append, parseDigitsAux, hdig, if_pos, List.append_eq] at hfull
    have hacc : (0 : Nat) * 10 + (48 + d - 48) = 48 + d - 48 := by omega
    rw [hacc] at hfull
    rw [hfull]
    have : ((n.natAbs : Int)) = n := by omega
    rw [this]

theorem hexVal_hexDigit (m : Nat) (h : m < 16) : hexVal (hexDigit m) = some m := by
  by_cases h10 : m < 10
  · have : hexDigit m = 48 + m := by simp [hexDigit, h10]
    rw [this]
    simp only [hexVal]
    rw [if_pos (by omega)]
    congr 1
    omega
  · have : hexDigit m = 87 + m := by simp [hexDigit, h10]
    rw [this]
    simp only [hexVal]
    rw [if_neg (by omega), if_pos (by omega)]
    congr 1
    omega

theorem parseStringBody_escape (s : List Nat) : ∀ (F : Nat) (rest : List Nat),
    s.length < F →
    parseStringBody F (escapeString s ++ 34 :: rest) = some (s, rest) := by
  induction s with
  | nil =>
    intro F rest hF
    obtain ⟨f, rfl⟩ : ∃ f, F = f + 1 := ⟨F - 1, by omega⟩
    show parseStringBody (f + 1) (34 :: rest) = some ([], rest)
    rw [parseStringBody]
    simp
  | cons c t ih =>
    intro F rest hF
    obtain ⟨f, rfl⟩ : ∃ f, F = f + 1 := ⟨F - 1, by omega⟩
    have hfi : t.length < f := by simp at hF; omega
    have he : escapeString (c :: t) ++ 34 :: rest =
        escapeChar c ++ (escapeString t ++ 34 :: rest) := by
      simp [escapeString]
    rw [he]
    by_cases h34 : c = 34
    · subst h34
      rw [show escapeChar 34 = [92, 34] from by simp [escapeChar]]
      simp only [List.cons_append, List.nil_append]
      rw [parseStringBody]
      simp [parseEscape, escCode, ih f rest hfi]
    · by_cases h92 : c = 92
      · subst h92
        rw [show escapeChar 92 = [92, 92] from by simp [escapeChar]]
        simp only [List.cons_append, List.nil_append]
        rw [parseStringBody]
        simp [parseEscape, escCode, ih f rest hfi]
      · by_cases h8 : c = 8
        · subst h8
          rw [show escapeChar 8 = [92, 98] from by simp [escapeChar]]
          simp only [List.cons_append, List.nil_append]
          rw [parseStringBody]
          simp [parseEscape, escCode, ih f rest hfi]
        · by_cases h9 : c = 9
          · subst h9
            rw [show escapeChar 9 = [92, 116] from by simp [escapeChar]]
            simp only [List.cons_append, List.nil_append]
            rw [parseStringBody]
            simp [parseEscape, escCode, ih f rest hfi]
          · by_cases h10 : c = 10
            · subst h10
              rw [show escapeChar 10 = [92, 110] from by simp [escapeChar]]
              simp only [List.cons_append, List.nil_append]
              rw [parseStringBody]
              simp [parseEscape, escCode, ih f rest hfi]
            · by_cases h12 : c = 12
              · subst h12
                rw [show escapeChar 12 = [92, 102] from by simp [escapeChar]]
                simp only [List.cons_append, List.nil_append]
                rw [parseStringBody]
                simp [parseEscape, escCode, ih f rest hfi]
              · by_cases h13 : c = 13
                · subst h13
                  rw [show escapeChar 13 = [92, 114] from by simp [escapeChar]]
                  simp only [List.cons_append, List.nil_append]
                  rw [parseStringBody]
                  simp [parseEscape, escCode, ih f rest hfi]
                · by_cases h32 : c < 32
                  · have hc : escapeChar c = [92, 117, 48, 48, hexDigit (c / 16), hexDigit (c % 16)] := by
                      simp [escapeChar, h34, h92, h8, h9, h10, h12, h13, h32]
                    rw [hc]
                    have hv0 : hexVal 48 = some 0 := by simp [hexVal]
                    have hv1 : hexVal (hexDigit (c / 16)) = some (c / 16) :=
                      hexVal_hexDigit _ (by omega)
                    have hv2 : hexVal (hexDigit (c % 16)) = some (c % 16) :=
                      hexVal_hexDigit _ (by omega)
                    simp only [List.cons_append, List.nil_append]
                    rw [parseStringBody]
                    simp [parseEscape, take4, hv0, hv1, hv2, ih f rest hfi]
                    omega
                  · have hc : escapeChar c = [c] := by
                      simp [escapeChar, h34, h92, h8, h9, h10, h12, h13, h32]
                    rw [hc]
                    simp only [List.cons_append, List.nil_append]
                    rw [parseStringBody]
                    simp [h34, h92, h32, ih f rest hfi]

theorem escapeChar_length_pos (c : Nat) : 1 ≤ (escapeChar c).length := by
  simp only [escapeChar]
  split_ifs <;> simp

theorem escapeString_length_ge (s : List Nat) : s.length ≤ (escapeString s).length := by
  induction s with
  | nil => simp [escapeString]
  | cons c t ih =>
    have : escapeString (c :: t) = escapeChar c ++ escapeString t := by
      simp [escapeString]
    rw [this]
    simp only [List.length_append, List.length_cons]
    have := escapeChar_length_pos c
    omega

/-- The serialization of the elements after the first array element:
empty for the last element, else a comma and the remaining elements. -/
def jserArrayTail : JArray → List Nat
  | .nil => []
  | .cons h t => 44 :: jserArray (.cons h t)

/-- The serialization of the fields after the first object field. -/
def jserObjectTail : JObject → List Nat
  | .nil => []
  | .cons k v t => 44 :: jserObject (.cons k v t)

theorem jserValue_head (v : JValue) : ∃ c cs, jserValue v = c :: cs ∧
    (c = 110 ∨ c = 116 ∨ c = 102 ∨ c = 34 ∨ c = 91 ∨ c = 123 ∨ c = 45 ∨
      (48 ≤ c ∧ c ≤ 57)) := by
  cases v with
  | null => exact ⟨110, _, rfl, by omega⟩
  | bool b =>
    cases b with
    | true => exact ⟨116, _, rfl, by omega⟩
    | false => exact ⟨102, _, rfl, by omega⟩
  | num n =>
    by_cases hn : n < 0
    · refine ⟨45, natDecimal n.natAbs, ?_, by omega⟩
      simp [jserValue, intDecimal, hn]
    · obtain ⟨d, t, hdt, hd⟩ := natDecimal_head n.toNat
      refine ⟨48 + d, t, ?_, by omega⟩
      simp [jserValue, intDecimal, hn, hdt]
  | str s => exact ⟨34, _, rfl, by omega⟩
  | arr a => exact ⟨91, _, rfl, by omega⟩
  | obj o => exact ⟨123, _, rfl, by omega⟩

mutual
theorem parseJValue_jser (v : JValue) : ∀ (fuel : Nat) (rest : List Nat),
    jsize v ≤ fuel → headNonDigit rest = true →
    parseJValue fuel (jserValue v ++ rest) = some (v, rest) := by
  intro fuel rest hfuel hrest
  obtain ⟨f, rfl⟩ : ∃ f, fuel = f + 1 := by
    cases v <;> simp [jsize] at hfuel <;> exact ⟨fuel - 1, by omega⟩
  cases v with
  | null =>
    show parseJValue (f + 1) (110 :: (117 :: 108 :: 108 :: rest)) = _
    rw [parseJValue]
    simp [expectChars]
  | bool b =>
    cases b with
    | true =>
      show parseJValue (f + 1) (116 :: (114 :: 117 :: 101 :: rest)) = _
      rw [parseJValue]
      simp [expectChars]
    | false =>
      show parseJValue (f + 1) (102 :: (97 :: 108 :: 115 :: 101 :: rest)) = _
      rw [parseJValue]
      simp [expectChars]
  | num n =>
    by_cases hn : n < 0
    · have he : jserValue (.num n) ++ rest = 45 :: (natDecimal n.natAbs ++ rest) := by
        simp [jserValue, intDecimal, hn]
      rw [he, parseJValue]
      rw [if_neg (by omega), if_neg (by omega), if_neg (by omega),
        if_neg (by omega), if_neg (by omega), if_neg (by omega)]
      rw [show (45 : Nat) :: (natDecimal n.natAbs ++ rest) = intDecimal n ++ rest from by
        simp [intDecimal, hn]]
      rw [parseNumber_intDecimal n rest hrest]
      rfl
    · obtain ⟨d, t2, hdt, hd⟩ := natDecimal_head n.toNat
      have he : jserValue (.num n) ++ rest = (48 + d) :: (t2 ++ rest) := by
        simp [jserValue, intDecimal, hn, hdt]
      rw [he, parseJValue]
      rw [if_neg (by omega), if_neg (by omega), if_neg (by omega),
        if_neg (by omega), if_neg (by omega), if_neg (by omega)]
      rw [show (48 + d) :: (t2 ++ rest) = intDecimal n ++ rest from by
        simp [intDecimal, hn, hdt]]
      rw [parseNumber_intDecimal n rest hrest]
      rfl
  | str s =>
    have he : jserValue (.str s) ++ rest = 34 :: (escapeString s ++ (34 :: rest)) := by
      simp [jserValue, jstrLit]
    rw [he, parseJValue]
    rw [if_neg (by omega), if_neg (by omega), if_neg (by omega), if_pos rfl]
    have hlen : s.length < (escapeString s ++ 34 :: rest).length + 1 := by
      have := escapeString_length_ge s
      simp only [List.length_append, List.length_cons]
      omega
    rw [parseStringBody_escape s _ rest hlen]
    rfl
  | arr a =>
    cases a with
    | nil =>
      show parseJValue (f + 1) (91 :: (93 :: rest)) = _
      rw [parseJValue]
      rw [if_neg (by omega), if_neg (by omega), if_neg (by omega),
        if_neg (by omega), if_pos rfl]
      rw [parseArrBody]
      simp
    | cons h t =>
      have he : jserValue (.arr (.cons h t)) ++ rest =
          91 :: (jserArray (.cons h t) ++ 93 :: rest) := by
        simp [jserValue]
      rw [he, parseJValue]
      rw [if_neg (by omega), if_neg (by omega), if_neg (by omega),
        if_neg (by omega), if_pos rfl]
      obtain ⟨c, cs, hsplit, hc⟩ := jserValue_head h
      have he2 : jserArray (.cons h t) ++ 93 :: rest = c :: (cs ++ jserArrayTail t ++ 93 :: rest) := by
        cases t <;> simp [jserArray, jserArrayTail, hsplit]
      rw [he2, parseArrBody, if_neg (by omega)]
      rw [show c :: (cs ++ jserArrayTail t ++ 93 :: rest) =
        jserArray (.cons h t) ++ 93 :: rest from he2.symm]
      have hsz : jsizeArr (.cons h t) ≤ f := by
        simp [jsize] at hfuel; omega
      rw [parseJArrayElems_jser h t f rest hsz]
      rfl
  | obj o =>
    cases o with
    | nil =>
      show parseJValue (f + 1) (123 :: (125 :: rest)) = _
      rw [parseJValue]
      rw [if_neg (by omega), if_neg (by omega), if_neg (by omega),
        if_neg (by omega), if_neg (by omega), if_pos rfl]
      rw [parseObjBody]
      simp
    | cons k v t =>
      have he : jserValue (.obj (.cons k v t)) ++ rest =
          123 :: (jserObject (.cons k v t) ++ 125 :: rest) := by
        simp [jserValue]
      rw [he, parseJValue]
      rw [if_neg (by omega), if_neg (by omega), if_neg (by omega),
        if_neg (by omega), if_neg (by omega), if_pos rfl]
      have he2 : jserObject (.cons k v t) ++ 125 :: rest =
          34 :: (escapeString k ++ (34 :: (58 :: (jserValue v ++ jserObjectTail t ++ 125 :: rest)))) := by
        cases t <;> simp [jserObject, jserObjectTail, jstrLit]
      rw [he2, parseObjBody, if_neg (by omega)]
      rw [show (34 : Nat) :: (escapeString k ++ (34 :: (58 :: (jserValue v ++ jserObjectTail t ++ 125 :: rest)))) =
        jserObject (.cons k v t) ++ 125 :: rest from he2.symm]
      have hsz : jsizeObj (.cons k v t) ≤ f := by
        simp [jsize] at hfuel; omega
      rw [parseJObjectFields_jser k v t f rest hsz]
      rfl
termination_by (sizeOf v, 0)

theorem parseJArrayElems_jser (h : JValue) (t : JArray) :
    ∀ (fuel : Nat) (rest : List Nat), jsizeArr (.cons h t) ≤ fuel →
    parseJArrayElems fuel (jserArray (.cons h t) ++ 93 :: rest) =
      some (.cons h t, rest) := by
  intro fuel rest hfuel
  obtain ⟨f, rfl⟩ : ∃ f, fuel = f + 1 := by
    simp [jsizeArr] at hfuel; exact ⟨fuel - 1, by omega⟩
  rw [parseJArrayElems]
  cases t with
  | nil =>
    have he : jserArray (.cons h .nil) ++ 93 :: rest = jserValue h ++ 93 :: rest := by
      simp [jserArray]
    rw [he]
    rw [parseJValue_jser h f (93 :: rest) (by simp [jsizeArr] at hfuel; omega)
      (by simp [headNonDigit, isDigit])]
    simp
  | cons h2 t2 =>
    have he : jserArray (.cons h (.cons h2 t2)) ++ 93 :: rest =
        jserValue h ++ (44 :: (jserArray (.cons h2 t2) ++ 93 :: rest)) := by
      simp [jserArray]
    rw [he]
    rw [parseJValue_jser h f _ (by simp [jsizeArr] at hfuel ⊢; omega)
      (by simp [headNonDigit, isDigit])]
    simp only [Option.bind_eq_bind, Option.some_bind]
    rw [parseJArrayElems_jser h2 t2 f rest (by simp [jsizeArr] at hfuel ⊢; omega)]
    simp
termination_by (sizeOf h + sizeOf t, 1)

theorem parseJObjectFields_jser (k : List Nat) (v : JValue) (t : JObject) :
    ∀ (fuel : Nat) (rest : List Nat), jsizeObj (.cons k v t) ≤ fuel →
    parseJObjectFields fuel (jserObject (.cons k v t) ++ 125 :: rest) =
      some (.cons k v t, rest) := by
  intro fuel rest hfuel
  obtain ⟨f, rfl⟩ : ∃ f, fuel = f + 1 := by
    simp [jsizeObj] at hfuel; exact ⟨fuel - 1, by omega⟩
  have he2 : jserObject (.cons k v t) ++ 125 :: rest =
      34 :: (escapeString k ++ (34 :: (58 :: (jserValue v ++ jserObjectTail t ++ 125 :: rest)))) := by
    cases t <;> simp [jserObject, jserObjectTail, jstrLit]
  rw [he2, parseJObjectFields]
  have hlen : k.length <
      (escapeString k ++ (34 :: (58 :: (jserValue v ++ jserObjectTail t ++ 125 :: rest)))).length + 1 := by
    have := escapeString_length_ge k
    simp only [List.length_append, List.length_cons]
    omega
  have hesc := parseStringBody_escape k _
    (58 :: (jserValue v ++ jserObjectTail t ++ 125 :: rest)) hlen
  simp only [reduceIte]
  rw [hesc]
  simp only [Option.bind_eq_bind, Option.some_bind, reduceIte]
  cases t with
  | nil =>
    have he3 : jserValue v ++ jserObjectTail .nil ++ 125 :: rest =
        jserValue v ++ 125 :: rest := by
      simp [jserObjectTail]
    rw [he3]
    rw [parseJValue_jser v f (125 :: rest) (by simp [jsizeObj] at hfuel; omega)
      (by simp [headNonDigit, isDigit])]
    simp
  | cons k2 v2 t2 =>
    have he3 : jserValue v ++ jserObjectTail (.cons k2 v2 t2) ++ 125 :: rest =
        jserValue v ++ (44 :: (jserObject (.cons k2 v2 t2) ++ 125 :: rest)) := by
      simp [jserObjectTail]
    rw [he3]
    rw [parseJValue_jser v f _ (by simp [jsizeObj] at hfuel ⊢; omega)
      (by simp [headNonDigit, isDigit])]
    simp only [Option.bind_eq_bind, Option.some_bind, reduceIte, if_true]
    rw [parseJObjectFields_jser k2 v2 t2 f rest (by simp [jsizeObj] at hfuel ⊢; omega)]
    simp
termination_by (sizeOf v + sizeOf t, 1)
end

mutual
theorem jsize_le_len (v : JValue) : jsize v ≤ (jserValue v).length := by
  cases v with
  | null => simp [jsize, jserValue]
  | bool b => cases b <;> simp [jsize, jserValue]
  | num n =>
    simp only [jsize, jserValue]
    by_cases hn : n < 0
    · obtain ⟨d, t, hdt, _⟩ := natDecimal_head n.natAbs
      simp [intDecimal, hn, hdt]
    · obtain ⟨d, t, hdt, _⟩ := natDecimal_head n.toNat
      simp [intDecimal, hn, hdt]
  | str s => simp [jsize, jserValue, jstrLit]
  | arr a =>
    have := jsizeArr_le_len a
    simp only [jsize, jserValue, List.length_cons, List.length_append,
      List.length_nil]
    omega
  | obj o =>
    have := jsizeObj_le_len o
    simp only [jsize, jserValue, List.length_cons, List.length_append,
      List.length_nil]
    omega
termination_by (sizeOf v, 0)
theorem jsizeArr_le_len (a : JArray) : jsizeArr a ≤ (jserArray a).length + 1 := by
  cases a with
  | nil => simp [jsizeArr, jserArray]
  | cons h t =>
    have h1 := jsize_le_len h
    cases t with
    | nil =>
      simp only [jsizeArr, jserArray]
      omega
    | cons h2 t2 =>
      have h2 := jsizeArr_le_len (.cons h2 t2)
      simp only [jsizeArr, jserArray, List.length_append, List.length_cons] at h2 ⊢
      omega
termination_by (sizeOf a, 1)
theorem jsizeObj_le_len (o : JObject) : jsizeObj o ≤ (jserObject o).length + 1 := by
  cases o with
  | nil => simp [jsizeObj, jserObject]
  | cons k v t =>
    have h1 := jsize_le_len v
    cases t with
    | nil =>
      simp only [jsizeObj, jserObject, List.length_append, List.length_cons]
      omega
    | cons k2 v2 t2 =>
      have h2 := jsizeObj_le_len (.cons k2 v2 t2)
      simp only [jsizeObj, jserObject, List.length_append, List.length_cons] at h2 ⊢
      omega
termination_by (sizeOf o, 1)
end

/-- The JSON codec round-trips: parsing a serialized value gives it back. -/
theorem jsonFromStr_jser (v : JValue) : jsonFromStr (jserValue v) = some v := by
  unfold jsonFromStr
  have h1 : jsize v ≤ (jserValue v).length + 1 :=
    le_trans (jsize_le_len v) (by omega)
  have h2 := parseJValue_jser v ((jserValue v).length + 1) [] h1 (by simp [headNonDigit])
  rw [List.append_nil] at h2
  rw [h2]

/-! ## Error taxonomy

Modelled from the spec: the crate error module (errors.rs) is not under
src/; the taxonomy below follows spec section 7 plus the generic KVError
variant that the source constructs for bincode decode failures. -/

inductive ErrorType where
  | KVError : ErrorType
  | FileError : ErrorType
  | CryptoError : ErrorType
  | PoisonError : ErrorType
  | SerializationError : ErrorType
  | MigrateError (vfrom vto : String) : ErrorType
deriving DecidableEq

structure KVError where
  error : ErrorType
  msg : Option String
deriving DecidableEq

/-! ## Value codec (src/helpers.rs encode_value and decode_value)

The value pipeline is serde_json::to_value(v).to_string(), then
bincode::serialize of that String (u64 little-endian length prefix and the
character data), then optionally secretbox::seal under the stored
password hash and the store nonce. -/

/-- bincode serialization of the JSON text: length prefix plus data. -/
def bincodeEncStr (s : List Nat) : List Nat :=
  u64le s.length ++ s

/-- bincode deserialization of a String; ignores trailing bytes, as
bincode::deserialize does by default. -/
def bincodeDecStr (l : List Nat) : Option (List Nat × List Nat) := do
  let (n, rest) ← readU64 l
  readBytes n rest

theorem bincodeDecStr_enc (s rest : List Nat) (h : s.length < 2 ^ 64) :
    bincodeDecStr (bincodeEncStr s ++ rest) = some (s, rest) := by
  unfold bincodeDecStr bincodeEncStr
  rw [List.append_assoc, readU64_u64le _ _ h]
  simp [readBytes_exact]

/-- Model of helpers.rs encode_value.  The `none` result models the
`Key::from_slice(..).unwrap()` panic when the stored password hash is not
exactly 32 bytes long. -/
def encode_value (v : JValue) (pwd : Option (List Nat)) (nonce : List Nat) :
    Option (List Nat) :=
  let value := jserValue v
  let ser_val := bincodeEncStr value
  match pwd with
  | some p =>
    if p.length = 32 then some (secretbox_seal p nonce ser_val) else none
  | none => some ser_val

/-- The password-dependent first stage of helpers.rs decode_value: derive
the key (failing with CryptoError when the hash is not 32 bytes), open the
AEAD seal (failing with CryptoError on authentication failure), or pass
the bytes through unchanged when no password is set. -/
def derive_plaintext (blob : List Nat) (pwd : Option (List Nat)) (nonce : List Nat) :
    Except KVError (List Nat) :=
  match pwd with
  | some p =>
    if p.length = 32 then
      match secretbox_open p nonce blob with
      | some r => Except.ok r
      | none => Except.error ⟨.CryptoError, some "cannot validate value being decrypted"⟩
    else Except.error ⟨.CryptoError, some "cannot derive key from password hash"⟩
  | none => Except.ok blob

/-- Model of helpers.rs decode_value: undo the optional AEAD seal, then
bincode-deserialize the String (the source maps this failure to the
generic KVError variant), then serde_json::from_str it. -/
def decode_value (blob : List Nat) (pwd : Option (List Nat)) (nonce : List Nat) :
    Except KVError JValue := do
  let deser ← derive_plaintext blob pwd nonce
  match bincodeDecStr deser with
  | some (s, _) =>
    match jsonFromStr s with
    | some v => Except.ok v
    | none => Except.error ⟨.SerializationError, some "serde_json parse failure"⟩
  | none => Except.error ⟨.KVError, some "cannot deserialize into specified object type"⟩

theorem except_bind_ok {a : Type} {b : Type} (x : a) (f : a → Except KVError b) :
    (do
      let y ← Except.ok x
      f y : Except KVError b) = f x := rfl

theorem except_bind_error {a : Type} {b : Type} (e : KVError) (f : a → Except KVError b) :
    (do
      let y ← Except.error e
      f y : Except KVError b) = Except.error e := rfl

/-- Round-trip of the full value codec under a matching password. -/
theorem decode_value_encode_value (v : JValue) (pwd : Option (List Nat))
    (nonce : List Nat)
    (hp : pwd = none ∨ ∃ p, pwd = some p ∧ p.length = 32)
    (hlen : (jserValue v).length < 2 ^ 64) :
    ∃ blob, encode_value v pwd nonce = some blob ∧
      decode_value blob pwd nonce = Except.ok v := by
  have htail : ∀ rest, bincodeDecStr (bincodeEncStr (jserValue v) ++ rest) =
      some (jserValue v, rest) := fun rest => bincodeDecStr_enc _ rest hlen
  have htail0 : bincodeDecStr (bincodeEncStr (jserValue v)) =
      some (jserValue v, []) := by
    have := htail []
    rwa [List.append_nil] at this
  rcases hp with h | ⟨p, hp, hplen⟩
  · subst h
    refine ⟨bincodeEncStr (jserValue v), rfl, ?_⟩
    simp only [decode_value, derive_plaintext, except_bind_ok]
    rw [htail0]
    simp [jsonFromStr_jser]
  · subst hp
    refine ⟨secretbox_seal p nonce (bincodeEncStr (jserValue v)), ?_, ?_⟩
    · simp [encode_value, hplen]
    · simp only [decode_value, derive_plaintext, hplen, if_pos]
      rw [secretbox_roundtrip]
      simp only [except_bind_ok]
      rw [htail0]
      simp [jsonFromStr_jser]

/-- Decoding under a different password than the one used for encoding
fails with CryptoError: either key derivation fails (hash not 32 bytes)
or AEAD authentication fails. -/
theorem decode_value_wrong_pwd (p1 p2 nonce blob : List Nat) (v : JValue)
    (h1 : p1.length = 32) (hne : p1 ≠ p2)
    (henc : encode_value v (some p1) nonce = some blob) :
    ∃ e, decode_value blob (some p2) nonce = Except.error e ∧
      e.error = ErrorType.CryptoError := by
  have hblob : blob = secretbox_seal p1 nonce (bincodeEncStr (jserValue v)) := by
    simp [encode_value, h1] at henc
    exact henc.symm
  subst hblob
  by_cases h2 : p2.length = 32
  · have hopen := secretbox_open_wrong_key p1 p2 nonce
      (bincodeEncStr (jserValue v)) (by omega) hne
    refine ⟨⟨.CryptoError, some "cannot validate value being decrypted"⟩, ?_, rfl⟩
    simp only [decode_value, derive_plaintext, h2, if_pos]
    rw [hopen]
    rfl
  · refine ⟨⟨.CryptoError, some "cannot derive key from password hash"⟩, ?_, rfl⟩
    simp only [decode_value, derive_plaintext, h2, if_neg]
    rfl

/-! ## Namespace store and registry (src/types.rs, src/history/v030.rs)

A namespace store is the IndexMap String -> SecVec<u8> of src/types.rs:
modelled as an association list in insertion order with unique keys.  The
registry is the HashMap String -> Storage of MicroKV030; the Arc/RwLock
wrappers are flattened away (the embedding is sequential; lock poisoning
has no pure counterpart, so the PoisonError paths are unreachable here). -/

/-- A namespace store: key to ciphertext blob, in insertion order. -/
abbrev KV := List (String × List Nat)

/-- The registry: namespace name to namespace store. -/
abbrev Reg := List (String × KV)

/-- IndexMap::contains_key. -/
def kvContains (k : String) (kv : KV) : Bool :=
  kv.any (fun e => e.1 = k)

/-- IndexMap::remove, which in indexmap 1.x is swap_remove: the last
entry moves into the removed slot and the map shrinks by one. -/
def kvSwapRemove (k : String) (kv : KV) : KV :=
  match kv.findIdx? (fun e => e.1 = k) with
  | none => kv
  | some i =>
    match kv.getLast? with
    | none => []
    | some last => (kv.set i last).dropLast

/-- IndexMap::insert: replace in place when the key exists, else append. -/
def kvInsert (k : String) (v : List Nat) : KV → KV
  | [] => [(k, v)]
  | e :: t => if e.1 = k then (k, v) :: t else e :: kvInsert k v t

/-- Byte ordering of Rust strings (UTF-8 bytes compare like scalar values). -/
def charListLe : List Char → List Char → Bool
  | [], _ => true
  | _ :: _, [] => false
  | a :: as, b :: bs =>
    if a.toNat < b.toNat then true
    else if a.toNat = b.toNat then charListLe as bs
    else false

/-- Rust String lexical order. -/
def strLe (a b : String) : Bool :=
  charListLe a.data b.data

/-- Insert into a key-sorted list (IndexMap::sort_keys model). -/
def kvInsertSorted (e : String × List Nat) : KV → KV
  | [] => [e]
  | f :: t => if strLe e.1 f.1 then e :: f :: t else f :: kvInsertSorted e t

/-- Sort a namespace store by key (IndexMap::sort_keys). -/
def kvSortKeys : KV → KV
  | [] => []
  | e :: t => kvInsertSorted e (kvSortKeys t)

/-- Insertion sort step on plain key lists. -/
def strInsertSorted (k : String) : List String → List String
  | [] => [k]
  | f :: t => if strLe k f then k :: f :: t else f :: strInsertSorted k t

/-- Lexical sort of a key list. -/
def strSort : List String → List String
  | [] => []
  | k :: t => strInsertSorted k (strSort t)

/-- HashMap::insert on the registry: overwrite in place or add. -/
def regInsert (k : String) (v : KV) : Reg → Reg
  | [] => [(k, v)]
  | e :: t => if e.1 = k then (k, v) :: t else e :: regInsert k v t

/-- HashMap::remove on the registry. -/
def regRemove (k : String) : Reg → Reg :=
  List.filter (fun e => !(e.1 = k : Bool))

/-- HashMap::contains_key on the registry. -/
def regContains (k : String) (r : Reg) : Bool :=
  r.any (fun e => e.1 = k)

/-! ## The store aggregate (src/history/v030.rs MicroKV030)

Fields follow the source struct; `pwd` carries the serde attribute
skip_serializing/skip_deserializing, which the byte codec below honours. -/

structure MicroKV030 where
  version : String
  path : String
  storage : Reg
  nonce : List Nat
  pwd : Option (List Nat)
  is_auto_commit : Bool
deriving DecidableEq

/-- MicroKV030::create (src/history/v030.rs): tags version "0.3.0". -/
def MicroKV030.create (path : String) (pwd : Option (List Nat)) (nonce : List Nat)
    (is_auto_commit : Bool) (storage : Reg) : MicroKV030 :=
  { version := "0.3.0", path := path, storage := storage, nonce := nonce,
    pwd := pwd, is_auto_commit := is_auto_commit }

/-! ## Store snapshot byte codec (bincode layout of MicroKV030)

bincode serializes the fields in declaration order: version and path as
length-prefixed strings, the registry as a count-prefixed sequence of
name/namespace-store pairs, each namespace store as a count-prefixed
sequence of key/blob pairs, the nonce as a fixed 24-byte array (no
prefix), and the auto-commit flag as one byte.  The pwd field is skipped
on both directions (serde skip attributes), so deserialization always
yields a store without a password. -/

/-- bincode encoding of a Rust String (length modelled in scalar values). -/
def encString (s : String) : List Nat :=
  u64le s.length ++ s.data.map Char.toNat

/-- Decode a length-prefixed string. -/
def decString (l : List Nat) : Option (String × List Nat) := do
  let (n, r) ← readU64 l
  let (cs, r2) ← readBytes n r
  some (String.mk (cs.map Char.ofNat), r2)

/-- Encode one key/blob entry. -/
def encKVEntry (e : String × List Nat) : List Nat :=
  encString e.1 ++ bincodeEncStr e.2

/-- Encode a namespace store: count prefix plus entries. -/
def encKV (kv : KV) : List Nat :=
  u64le kv.length ++ kv.flatMap encKVEntry

/-- Decode `n` key/blob entries. -/
def decKVEntries : Nat → List Nat → Option (KV × List Nat)
  | 0, l => some ([], l)
  | n + 1, l => do
    let (k, r1) ← decString l
    let (b, r2) ← bincodeDecStr r1
    let (tl, r3) ← decKVEntries n r2
    some ((k, b) :: tl, r3)

/-- Decode a namespace store. -/
def decKV (l : List Nat) : Option (KV × List Nat) := do
  let (n, r) ← readU64 l
  decKVEntries n r

/-- Encode one registry entry. -/
def encRegEntry (e : String × KV) : List Nat :=
  encString e.1 ++ encKV e.2

/-- Encode the registry. -/
def encReg (reg : Reg) : List Nat :=
  u64le reg.length ++ reg.flatMap encRegEntry

/-- Decode `n` registry entries. -/
def decRegEntries : Nat → List Nat → Option (Reg × List Nat)
  | 0, l => some ([], l)
  | n + 1, l => do
    let (k, r1) ← decString l
    let (kv, r2) ← decKV r1
    let (tl, r3) ← decRegEntries n r2
    some ((k, kv) :: tl, r3)

/-- Decode the registry. -/
def decReg (l : List Nat) : Option (Reg × List Nat) := do
  let (n, r) ← readU64 l
  decRegEntries n r

/-- Serialize the whole store, excluding the password (serde skip). -/
def encodeStoreBytes (st : MicroKV030) : List Nat :=
  encString st.version ++ encString st.path ++ encReg st.storage ++
    st.nonce ++ [if st.is_auto_commit then 1 else 0]

/-- Deserialize a store snapshot; the password comes back absent
(serde skip_deserializing default).  Trailing bytes are ignored, as
bincode::deserialize does by default. -/
def decodeStoreBytes (l : List Nat) : Option MicroKV030 := do
  let (ver, r1) ← decString l
  let (p, r2) ← decString r1
  let (reg, r3) ← decReg r2
  let (non, r4) ← readBytes 24 r3
  match r4 with
  | [] => none
  | b :: _ =>
    if b = 1 then some ⟨ver, p, reg, non, none, true⟩
    else if b = 0 then some ⟨ver, p, reg, non, none, false⟩
    else none

/-- Length bounds under which the bincode length prefixes are faithful. -/
def wfKV (kv : KV) : Prop :=
  kv.length < 2 ^ 64 ∧ ∀ e ∈ kv, e.1.length < 2 ^ 64 ∧ e.2.length < 2 ^ 64

/-- Well-formedness of a registry. -/
def wfReg (reg : Reg) : Prop :=
  reg.length < 2 ^ 64 ∧ ∀ e ∈ reg, e.1.length < 2 ^ 64 ∧ wfKV e.2

/-- Well-formedness of a store: bounded lengths and a 24-byte nonce. -/
def wfStore (st : MicroKV030) : Prop :=
  st.version.length < 2 ^ 64 ∧ st.path.length < 2 ^ 64 ∧
    wfReg st.storage ∧ st.nonce.length = 24

theorem decString_enc (s : String) (rest : List Nat) (h : s.length < 2 ^ 64) :
    decString (encString s ++ rest) = some (s, rest) := by
  unfold decString encString
  rw [List.append_assoc, readU64_u64le _ _ h]
  simp only [Option.bind_eq_bind, Option.some_bind]
  have hlen : s.length = (s.data.map Char.toNat).length := by simp
  rw [hlen, readBytes_exact]
  simp only [Option.some_bind, List.map_map]
  rw [show (Char.ofNat ∘ Char.toNat) = id from funext fun c => Char.ofNat_toNat c,
    List.map_id]

theorem decKVEntries_enc (kv : KV) : ∀ rest : List Nat,
    (∀ e ∈ kv, e.1.length < 2 ^ 64 ∧ e.2.length < 2 ^ 64) →
    decKVEntries kv.length (kv.flatMap encKVEntry ++ rest) = some (kv, rest) := by
  induction kv with
  | nil => intro rest _; simp [decKVEntries]
  | cons e t ih =>
    intro rest hwf
    have hhd := hwf e (by simp)
    have he : (e :: t).flatMap encKVEntry ++ rest =
        encString e.1 ++ (bincodeEncStr e.2 ++ (t.flatMap encKVEntry ++ rest)) := by
      simp [encKVEntry]
    rw [List.length_cons, he, decKVEntries]
    rw [decString_enc _ _ hhd.1]
    simp only [Option.bind_eq_bind, Option.some_bind]
    rw [bincodeDecStr_enc _ _ hhd.2]
    simp only [Option.some_bind]
    rw [ih rest (fun e he2 => hwf e (by simp [he2]))]
    rfl

theorem decKV_enc (kv : KV) (rest : List Nat) (h : wfKV kv) :
    decKV (encKV kv ++ rest) = some (kv, rest) := by
  unfold decKV encKV
  rw [List.append_assoc, readU64_u64le _ _ h.1]
  simp only [Option.bind_eq_bind, Option.some_bind]
  exact decKVEntries_enc kv rest h.2

theorem decRegEntries_enc (reg : Reg) : ∀ rest : List Nat,
    (∀ e ∈ reg, e.1.length < 2 ^ 64 ∧ wfKV e.2) →
    decRegEntries reg.length (reg.flatMap encRegEntry ++ rest) = some (reg, rest) := by
  induction reg with
  | nil => intro rest _; simp [decRegEntries]
  | cons e t ih =>
    intro rest hwf
    have hhd := hwf e (by simp)
    have he : (e :: t).flatMap encRegEntry ++ rest =
        encString e.1 ++ (encKV e.2 ++ (t.flatMap encRegEntry ++ rest)) := by
      simp [encRegEntry]
    rw [List.length_cons, he, decRegEntries]
    rw [decString_enc _ _ hhd.1]
    simp only [Option.bind_eq_bind, Option.some_bind]
    rw [decKV_enc _ _ hhd.2]
    simp only [Option.some_bind]
    rw [ih rest (fun e he2 => hwf e (by simp [he2]))]
    rfl

theorem decReg_enc (reg : Reg) (rest : List Nat) (h : wfReg reg) :
    decReg (encReg reg ++ rest) = some (reg, rest) := by
  unfold decReg encReg
  rw [List.append_assoc, readU64_u64le _ _ h.1]
  simp only [Option.bind_eq_bind, Option.some_bind]
  exact decRegEntries_enc reg rest h.2

/-- Deserializing a serialized store restores everything except the
password, which serde skips in both directions. -/
theorem decodeStoreBytes_enc (st : MicroKV030) (h : wfStore st) :
    decodeStoreBytes (encodeStoreBytes st) = some { st with pwd := none } := by
  obtain ⟨h1, h2, h3, h4⟩ := h
  unfold decodeStoreBytes encodeStoreBytes
  simp only [List.append_assoc]
  rw [decString_enc _ _ h1]
  simp only [Option.bind_eq_bind, Option.some_bind]
  rw [decString_enc _ _ h2]
  simp only [Option.some_bind]
  rw [decReg_enc _ _ h3]
  simp only [Option.some_bind]
  rw [show (24 : Nat) = st.nonce.length from h4.symm, readBytes_exact]
  simp only [Option.some_bind]
  cases hac : st.is_auto_commit <;> simp [hac]

/-- Deserializing a serialized store followed by any trailing bytes
restores everything except the password: bincode::deserialize ignores
bytes after the encoded value. -/
theorem decodeStoreBytes_enc_append (st : MicroKV030) (rest : List Nat)
    (h : wfStore st) :
    decodeStoreBytes (encodeStoreBytes st ++ rest) = some { st with pwd := none } := by
  obtain ⟨h1, h2, h3, h4⟩ := h
  unfold decodeStoreBytes encodeStoreBytes
  simp only [List.append_assoc]
  rw [decString_enc _ _ h1]
  simp only [Option.bind_eq_bind, Option.some_bind]
  rw [decString_enc _ _ h2]
  simp only [Option.some_bind]
  rw [decReg_enc _ _ h3]
  simp only [Option.some_bind]
  rw [show (24 : Nat) = st.nonce.length from h4.symm, readBytes_exact]
  simp only [Option.some_bind]
  cases hac : st.is_auto_commit <;> simp [hac]

/-- The serialized snapshot does not depend on the password field. -/
theorem encodeStoreBytes_pwd_irrelevant (st : MicroKV030) (p q : Option (List Nat)) :
    encodeStoreBytes { st with pwd := p } = encodeStoreBytes { st with pwd := q } := rfl

/-! ## Filesystem model and persistence (src/helpers.rs persist_serialize)

The backing file is the byte list at the store path (none when absent or
unreadable).  `parentDirOk` records whether the parent directory exists;
`ioFail` models an I/O layer that fails writes (directory creation, open
or write_all), which the source surfaces as FileError through `?`.
`path.parent()` returning None is modelled by the empty path. -/

structure FileSys where
  file : Option (List Nat)
  parentDirOk : Bool
  ioFail : Bool
deriving DecidableEq

/-- helpers.rs read_file_and_deserialize_bincode, collapsed to its result:
the deserialized store when the file exists and parses, else none. -/
def read_file_and_deserialize_bincode (fs : FileSys) : Option MicroKV030 :=
  match fs.file with
  | none => none
  | some bytes => decodeStoreBytes bytes

/-- A write through OpenOptions write(true).create(true) with no truncate:
the bytes overwrite the front of the existing content, and when the
existing file is longer its trailing bytes survive the write. -/
def writeNoTruncate (old : Option (List Nat)) (bytes : List Nat) : List Nat :=
  match old with
  | none => bytes
  | some prev => bytes ++ prev.drop bytes.length

/-- helpers.rs persist_serialize: check the parent path, create missing
directories, then write the serialized object from the start of the file.
The source opens the file with write(true).create(true) and never
truncates, so a serialization shorter than the previous file content
leaves the previous content's tail in place. -/
def persist_serialize (path : String) (st : MicroKV030) (fs : FileSys) :
    Except KVError FileSys :=
  if path = "" then
    Except.error ⟨.FileError, some "The store file parent path is not sound"⟩
  else if fs.ioFail then Except.error ⟨.FileError, none⟩
  else Except.ok { fs with parentDirOk := true, file := some (writeNoTruncate fs.file (encodeStoreBytes st)) }

/-- MicroKV030::commit (src/history/v030.rs). -/
def MicroKV030.commit (st : MicroKV030) (fs : FileSys) : Except KVError FileSys :=
  persist_serialize st.path st fs

/-! ## Reload and locking (src/history/v030.rs) -/

/-- MicroKV030::reload: read and deserialize the backing file (a failure
makes the whole reload a no-op), then insert every on-disk namespace over
the in-memory one and drop every in-memory namespace absent on disk. -/
def reloadStore (st : MicroKV030) (fs : FileSys) : MicroKV030 :=
  match read_file_and_deserialize_bincode fs with
  | none => st
  | some other =>
    let c_ns := st.storage.map Prod.fst
    let o_ns := other.storage.map Prod.fst
    let removed_ns := c_ns.filter (fun x => !(o_ns.contains x))
    let reg1 := o_ns.foldl (fun r ns =>
      match List.lookup ns other.storage with
      | some kv => regInsert ns kv r
      | none => r) st.storage
    let reg2 := removed_ns.foldl (fun r ns => regRemove ns r) reg1
    { st with storage := reg2 }

/-- MicroKV030::safe_storage: reload, then create the namespace if absent. -/
def safe_storage (st : MicroKV030) (fs : FileSys) (ns : String) : MicroKV030 :=
  let st1 := reloadStore st fs
  if regContains ns st1.storage then st1
  else { st1 with storage := regInsert ns [] st1.storage }

/-- The namespace store a lock tier hands to a callback. -/
def nsData (st : MicroKV030) (ns : String) : KV :=
  (List.lookup ns st.storage).getD []

/-- The store state after the reload and safe_storage steps that both
lock_read and lock_write perform before invoking their callback. -/
def lock_state (st : MicroKV030) (fs : FileSys) (ns : String) : MicroKV030 :=
  safe_storage (reloadStore st fs) fs ns

/-! ## Namespace facade (src/namespace.rs NamespaceMicroKV) -/

/-- Replace the registry of a store. -/
def withStorage (st : MicroKV030) (r : Reg) : MicroKV030 :=
  { st with storage := r }

/-- The clear closure of NamespaceMicroKV::clear: first zero out every
stored blob in place, then remove all entries.  The first component is
the wiped intermediate map, the second the final empty map. -/
def kvClearWipe (kv : KV) : KV × KV :=
  (kv.map (fun e => (e.1, e.2.map (fun _ => 0))), [])

/-- The namespace registry put leaves behind: remove the key when
present (IndexMap remove, a swap_remove), then insert the new blob. -/
def putStorage (stL : MicroKV030) (ns k : String) (blob : List Nat) : Reg :=
  regInsert ns (kvInsert k blob
    (if kvContains k (nsData stL ns) then kvSwapRemove k (nsData stL ns)
      else nsData stL ns)) stL.storage

/-- The namespace registry delete leaves behind. -/
def deleteStorage (stL : MicroKV030) (ns k : String) : Reg :=
  regInsert ns (kvSwapRemove k (nsData stL ns)) stL.storage

/-- The namespace registry clear leaves behind: the wipe pass runs over
every blob, then the namespace is emptied. -/
def clearStorage (stL : MicroKV030) (ns : String) : Reg :=
  regInsert ns (kvClearWipe (nsData stL ns)).2 stL.storage

/-- The auto-commit tail every mutating facade operation ends with:
commit when the flag is set, surfacing a commit failure to the caller
while keeping the already-mutated in-memory state. -/
def ns_commit_step (st3 : MicroKV030) (fs : FileSys) :
    Except KVError Unit × MicroKV030 × FileSys :=
  if st3.is_auto_commit then
    match st3.commit fs with
    | Except.ok fs2 => (Except.ok (), st3, fs2)
    | Except.error e => (Except.error e, st3, fs)
  else (Except.ok (), st3, fs)

/-- NamespaceMicroKV::get: lock_read, look the key up, decode the blob
with the store password and nonce (inlined decode_value in the source). -/
def ns_get (st : MicroKV030) (fs : FileSys) (ns k : String) :
    Except KVError (Option JValue) × MicroKV030 :=
  match List.lookup k (nsData (lock_state st fs ns) ns) with
  | none => (Except.ok none, lock_state st fs ns)
  | some blob =>
    match decode_value blob (lock_state st fs ns).pwd (lock_state st fs ns).nonce with
    | Except.ok v => (Except.ok (some v), lock_state st fs ns)
    | Except.error e => (Except.error e, lock_state st fs ns)

/-- NamespaceMicroKV::put: remove-then-insert under the write lock, then
the auto-commit tail.  The `none` result models the encode panic on a
malformed password hash. -/
def ns_put (st : MicroKV030) (fs : FileSys) (ns k : String) (v : JValue) :
    Option (Except KVError Unit × MicroKV030 × FileSys) :=
  match encode_value v (lock_state st fs ns).pwd (lock_state st fs ns).nonce with
  | none => none
  | some blob =>
    some (ns_commit_step
      (withStorage (lock_state st fs ns) (putStorage (lock_state st fs ns) ns k blob)) fs)

/-- NamespaceMicroKV::delete: remove (no error when absent), then the
auto-commit tail. -/
def ns_delete (st : MicroKV030) (fs : FileSys) (ns k : String) :
    Except KVError Unit × MicroKV030 × FileSys :=
  ns_commit_step
    (withStorage (lock_state st fs ns) (deleteStorage (lock_state st fs ns) ns k)) fs

/-- NamespaceMicroKV::exists. -/
def ns_exists (st : MicroKV030) (fs : FileSys) (ns k : String) :
    Bool × MicroKV030 :=
  (kvContains k (nsData (lock_state st fs ns) ns), lock_state st fs ns)

/-- NamespaceMicroKV::keys: the keys in the map iteration order. -/
def ns_keys (st : MicroKV030) (fs : FileSys) (ns : String) :
    List String × MicroKV030 :=
  ((nsData (lock_state st fs ns) ns).map Prod.fst, lock_state st fs ns)

/-- NamespaceMicroKV::sorted_keys: clone, sort_keys in the clone, collect. -/
def ns_sorted_keys (st : MicroKV030) (fs : FileSys) (ns : String) :
    List String × MicroKV030 :=
  ((kvSortKeys (nsData (lock_state st fs ns) ns)).map Prod.fst, lock_state st fs ns)

/-- NamespaceMicroKV::clear: wipe then empty the namespace under the
write lock, then the auto-commit tail. -/
def ns_clear (st : MicroKV030) (fs : FileSys) (ns : String) :
    Except KVError Unit × MicroKV030 × FileSys :=
  ns_commit_step
    (withStorage (lock_state st fs ns) (clearStorage (lock_state st fs ns) ns)) fs

/-! ## Migration chain and open (src/migrate.rs, src/kv.rs) -/

/-- Modelled from the spec: the crate version string
(env CARGO_PKG_VERSION; Cargo.toml is not part of src/). -/
def currentVersion : String := "0.3.2"

/-- Migrate::try_current (src/migrate.rs): deserialize as the 0.3.0
layout. -/
def try_current (binary : List Nat) : Except KVError MicroKV030 :=
  match decodeStoreBytes binary with
  | some st => Except.ok st
  | none => Except.error ⟨.MigrateError "0.3.0" currentVersion,
      some "Failed to deserialize to 0.3.0"⟩

/-- Migrate::try_less_than_030 (src/migrate.rs): unconditionally refuses
to migrate pre-0.3.0 layouts. -/
def try_less_than_030 (binary : List Nat) : Except KVError MicroKV030 :=
  Except.error ⟨.MigrateError "<0.3.0" currentVersion,
    some "Not support migrate less than 0.3.0"⟩

/-- Migrate::migrate (src/migrate.rs): read the raw file, try the current
layout, fall back to the pre-0.3.0 attempt, and wrap any failure as a
MigrateError naming the detected and target versions. -/
def Migrate.migrate (fs : FileSys) : Except KVError MicroKV030 :=
  match fs.file with
  | none => Except.error ⟨.FileError, none⟩
  | some kv_raw =>
    match try_current kv_raw with
    | Except.ok v => Except.ok v
    | Except.error _ =>
      match try_less_than_030 kv_raw with
      | Except.ok v => Except.ok v
      | Except.error e =>
        match e.error with
        | ErrorType.MigrateError f t =>
          Except.error ⟨ErrorType.MigrateError f t, some "Not support migrate"⟩
        | _ =>
          Except.error ⟨ErrorType.MigrateError "UNKNOWN" currentVersion,
            some "Not support migrate"⟩

/-- helpers.rs get_db_path_with_base_path: base slash name dot kv. -/
def get_db_path_with_base_path (name base : String) : String :=
  base ++ "/" ++ name ++ ".kv"

/-- MicroKV::new_with_base_path (src/kv.rs): fresh empty unencrypted
store with a new nonce and auto-commit off. -/
def new_with_base_path (dbname base : String) (nonce : List Nat) : MicroKV030 :=
  MicroKV030.create (get_db_path_with_base_path dbname base) none nonce false []

/-- MicroKV::open_with_base_path (src/kv.rs): when the file exists,
migrate, fix the path, recommit; otherwise build a fresh store.  The
fresh nonce consumed when creating anew is an explicit argument. -/
def open_with_base_path (dbname base : String) (nonce : List Nat) (fs : FileSys) :
    Except KVError (MicroKV030 × FileSys) :=
  let path := get_db_path_with_base_path dbname base
  if fs.file.isSome then
    match Migrate.migrate fs with
    | Except.error e => Except.error e
    | Except.ok kv0 =>
      let kv := { kv0 with path := path }
      match kv.commit fs with
      | Except.ok fs2 => Except.ok (kv, fs2)
      | Except.error e => Except.error e
  else Except.ok (new_with_base_path dbname base nonce, fs)

/-! ## The 0.2.7-era migration transform (src/migrate/mod.rs)

This module is the earlier revision of the migration engine that still
ships in the tree.  Its MicroKV027 record (src/migrate/history.rs, there
spelled MicroKV030) has exactly the field layout of the current store
type, so the model reuses `MicroKV030` for the transform result. -/

/-- The legacy flat single-namespace record
(src/migrate/history.rs MicroKVLessThan027). -/
structure MicroKVLessThan027 where
  path : String
  storage : KV
  nonce : List Nat
  pwd : Option (List Nat)
  is_auto_commit : Bool
deriving DecidableEq

/-- bincode layout of a legacy flat store: path, flat map, nonce, flag. -/
def encodeLegacyBytes (kv : MicroKVLessThan027) : List Nat :=
  encString kv.path ++ encKV kv.storage ++ kv.nonce ++
    [if kv.is_auto_commit then 1 else 0]

/-- FromLessThan027::migrate_to_027 (src/migrate/mod.rs): wrap the flat
mapping as the default namespace of a fresh registry, preserve path,
nonce, password and auto-commit flag, tag version 0.2.7, and commit. -/
def migrate_to_027 (kv : MicroKVLessThan027) (fs : FileSys) :
    Except KVError (MicroKV030 × FileSys) :=
  let storage_map := regInsert "" kv.storage []
  let microkv : MicroKV030 :=
    { version := "0.2.7", path := kv.path, storage := storage_map,
      nonce := kv.nonce, pwd := kv.pwd, is_auto_commit := kv.is_auto_commit }
  match persist_serialize microkv.path microkv fs with
  | Except.ok fs2 => Except.ok (microkv, fs2)
  | Except.error e => Except.error e

/-! ## Association-list lemmas for the registry and namespace stores -/

instance (kv : KV) : Decidable (wfKV kv) := by unfold wfKV; infer_instance

instance (reg : Reg) : Decidable (wfReg reg) := by unfold wfReg; infer_instance

instance (st : MicroKV030) : Decidable (wfStore st) := by unfold wfStore; infer_instance

theorem lookup_cons_eq {α : Type} (k : String) (e : String × α) (t : List (String × α))
    (h : k = e.1) : List.lookup k (e :: t) = some e.2 := by
  obtain ⟨e1, e2⟩ := e
  subst h
  simp [List.lookup]

theorem lookup_cons_ne {α : Type} (k : String) (e : String × α) (t : List (String × α))
    (h : ¬(k = e.1)) : List.lookup k (e :: t) = List.lookup k t := by
  obtain ⟨e1, e2⟩ := e
  have hb : (k == e1) = false := beq_eq_false_iff_ne.mpr h
  simp only [List.lookup, hb]

theorem lookup_none_of_not_mem_fst {α : Type} (k : String) (l : List (String × α))
    (h : k ∉ l.map Prod.fst) : List.lookup k l = none := by
  induction l with
  | nil => rfl
  | cons e t ih =>
    simp only [List.map_cons, List.mem_cons] at h
    push_neg at h
    rw [lookup_cons_ne k e t h.1]
    exact ih h.2

theorem lookup_isSome_of_mem_fst {α : Type} (k : String) (l : List (String × α))
    (h : k ∈ l.map Prod.fst) : (List.lookup k l).isSome := by
  induction l with
  | nil => simp at h
  | cons e t ih =>
    simp only [List.map_cons, List.mem_cons] at h
    by_cases hk : k = e.1
    · rw [lookup_cons_eq k e t hk]; rfl
    · rw [lookup_cons_ne k e t hk]
      exact ih (h.resolve_left hk)

theorem mem_fst_of_lookup_some {α : Type} (k : String) (l : List (String × α)) (v : α)
    (h : List.lookup k l = some v) : k ∈ l.map Prod.fst := by
  by_contra hk
  rw [lookup_none_of_not_mem_fst k l hk] at h
  exact Option.noConfusion h

theorem lookup_regInsert_self (k : String) (v : KV) (r : Reg) :
    List.lookup k (regInsert k v r) = some v := by
  induction r with
  | nil => simp [regInsert, List.lookup]
  | cons e t ih =>
    simp only [regInsert]
    by_cases he : e.1 = k
    · rw [if_pos he, lookup_cons_eq k (k, v) t rfl]
    · rw [if_neg he, lookup_cons_ne k e _ (fun hk => he hk.symm)]
      exact ih

theorem lookup_regInsert_ne (k k' : String) (v : KV) (r : Reg) (h : k' ≠ k) :
    List.lookup k' (regInsert k v r) = List.lookup k' r := by
  induction r with
  | nil =>
    simp only [regInsert]
    rw [lookup_cons_ne k' (k, v) [] h]
  | cons e t ih =>
    simp only [regInsert]
    by_cases he : e.1 = k
    · rw [if_pos he, lookup_cons_ne k' (k, v) t h, lookup_cons_ne k' e t (he ▸ h)]
    · rw [if_neg he]
      by_cases hk : k' = e.1
      · rw [lookup_cons_eq k' e _ hk, lookup_cons_eq k' e t hk]
      · rw [lookup_cons_ne k' e _ hk, lookup_cons_ne k' e t hk]
        exact ih

theorem regInsert_lookup_eq_self (k : String) (v : KV) (r : Reg)
    (h : List.lookup k r = some v) : regInsert k v r = r := by
  induction r with
  | nil => simp [List.lookup] at h
  | cons e t ih =>
    simp only [regInsert]
    by_cases he : e.1 = k
    · rw [if_pos he]
      rw [lookup_cons_eq k e t he.symm] at h
      obtain ⟨e1, e2⟩ := e
      simp only at he
      simp only [Option.some.injEq] at h
      rw [he, h]
    · rw [if_neg he]
      rw [lookup_cons_ne k e t (fun hk => he hk.symm)] at h
      rw [ih h]

theorem lookup_regRemove_self (k : String) (r : Reg) :
    List.lookup k (regRemove k r) = none := by
  induction r with
  | nil => rfl
  | cons e t ih =>
    by_cases he : e.1 = k
    · have hb : (!decide (e.1 = k)) = false := by simp [he]
      simp only [regRemove, List.filter, hb]
      exact ih
    · have hb : (!decide (e.1 = k)) = true := by simp [he]
      simp only [regRemove, List.filter, hb]
      rw [lookup_cons_ne k e _ (fun hk => he hk.symm)]
      exact ih

theorem lookup_regRemove_ne (k k' : String) (r : Reg) (h : k' ≠ k) :
    List.lookup k' (regRemove k r) = List.lookup k' r := by
  induction r with
  | nil => rfl
  | cons e t ih =>
    by_cases he : e.1 = k
    · have hb : (!decide (e.1 = k)) = false := by simp [he]
      simp only [regRemove, List.filter, hb]
      rw [lookup_cons_ne k' e t (fun hk => h (hk.trans he))]
      exact ih
    · have hb : (!decide (e.1 = k)) = true := by simp [he]
      simp only [regRemove, List.filter, hb]
      by_cases hk : k' = e.1
      · rw [lookup_cons_eq k' e _ hk, lookup_cons_eq k' e t hk]
      · rw [lookup_cons_ne k' e _ hk, lookup_cons_ne k' e t hk]
        exact ih

theorem lookup_regRemove_none (k k' : String) (r : Reg)
    (h : List.lookup k' r = none) : List.lookup k' (regRemove k r) = none := by
  by_cases hk : k' = k
  · subst hk; exact lookup_regRemove_self k' r
  · rw [lookup_regRemove_ne k k' r hk]; exact h

theorem regContains_iff_mem_fst (k : String) (r : Reg) :
    regContains k r = true ↔ k ∈ r.map Prod.fst := by
  simp only [regContains, List.any_eq_true, decide_eq_true_eq, List.mem_map]

theorem kvContains_iff_mem_fst (k : String) (l : KV) :
    kvContains k l = true ↔ k ∈ l.map Prod.fst := by
  simp only [kvContains, List.any_eq_true, decide_eq_true_eq, List.mem_map]

theorem lookup_kvInsert_self (k : String) (v : List Nat) (l : KV) :
    List.lookup k (kvInsert k v l) = some v := by
  induction l with
  | nil => simp [kvInsert, List.lookup]
  | cons e t ih =>
    simp only [kvInsert]
    by_cases he : e.1 = k
    · rw [if_pos he, lookup_cons_eq k (k, v) t rfl]
    · rw [if_neg he, lookup_cons_ne k e _ (fun hk => he hk.symm)]
      exact ih

theorem kvInsert_of_not_mem (k : String) (v : List Nat) (l : KV)
    (h : k ∉ l.map Prod.fst) : kvInsert k v l = l ++ [(k, v)] := by
  induction l with
  | nil => rfl
  | cons e t ih =>
    simp only [List.map_cons, List.mem_cons] at h
    push_neg at h
    simp only [kvInsert]
    rw [if_neg (fun he => h.1 he.symm)]
    rw [ih h.2]
    rfl

theorem kvSwapRemove_not_contains (k : String) (l : KV)
    (h : kvContains k l = false) : kvSwapRemove k l = l := by
  have hidx : l.findIdx? (fun e => decide (e.1 = k)) = none := by
    rw [List.findIdx?_eq_none_iff]
    intro e he
    simp only [kvContains, List.any_eq_false] at h
    simpa using h e he
  simp [kvSwapRemove, hidx]

theorem not_mem_map_fst_kvSwapRemove (k : String) (l : KV)
    (hnd : (l.map Prod.fst).Nodup) : k ∉ (kvSwapRemove k l).map Prod.fst := by
  cases hidx : l.findIdx? (fun e => decide (e.1 = k)) with
  | none =>
    have hrw : kvSwapRemove k l = l := by simp [kvSwapRemove, hidx]
    rw [hrw]
    intro hk
    rw [List.findIdx?_eq_none_iff] at hidx
    obtain ⟨e, he, hek⟩ := List.mem_map.mp hk
    have h2 := hidx e he
    simp [hek] at h2
  | some i =>
    cases hlast : l.getLast? with
    | none =>
      rw [List.getLast?_eq_none_iff] at hlast
      subst hlast
      simp at hidx
    | some last =>
      have hrw : kvSwapRemove k l = (l.set i last).dropLast := by
        simp [kvSwapRemove, hidx, hlast]
      rw [hrw]
      intro hk
      obtain ⟨hilen, hpi, _⟩ := List.findIdx?_eq_some_iff_getElem.mp hidx
      have hki : l[i].1 = k := by simpa using hpi
      have hlnil : l ≠ [] := by rintro rfl; simp at hidx
      have hlen1 : l.length - 1 < l.length := by
        cases l with
        | nil => exact absurd rfl hlnil
        | cons a t => simp
      have hinj : ∀ (a b : Nat) (ha : a < l.length) (hb : b < l.length),
          l[a].1 = k → l[b].1 = k → a = b := by
        intro a b ha hb hak hbk
        have hma : a < (l.map Prod.fst).length := by simpa
        have hmb : b < (l.map Prod.fst).length := by simpa
        have heq : (l.map Prod.fst)[a] = (l.map Prod.fst)[b] := by
          simp only [List.getElem_map]
          rw [hak, hbk]
        exact (List.Nodup.getElem_inj_iff hnd).mp heq
      have hlast2 : last = l.getLast hlnil :=
        ((List.getLast_eq_iff_getLast_eq_some hlnil).mpr hlast).symm
      have hlastelem : last = l[l.length - 1] := by
        rw [hlast2, List.getLast_eq_getElem]
      obtain ⟨e, he, hek⟩ := List.mem_map.mp hk
      obtain ⟨j, hj, hje⟩ := List.mem_iff_getElem.mp he
      have hjlen : j < l.length - 1 := by
        have hlend : ((l.set i last).dropLast).length = l.length - 1 := by
          rw [List.length_dropLast, List.length_set]
        omega
      have hjset : j < (l.set i last).length := by
        rw [List.length_set]; omega
      have hje2 : (l.set i last)[j] = e := by
        rw [← hje, List.getElem_dropLast]
      by_cases hij : i = j
      · subst hij
        rw [List.getElem_set, if_pos rfl] at hje2
        have hlk : (l[l.length - 1]).1 = k := by
          rw [← hlastelem, hje2, hek]
        have := hinj i (l.length - 1) hilen hlen1 hki hlk
        omega
      · rw [List.getElem_set, if_neg hij] at hje2
        have hjk : (l[j]).1 = k := by rw [hje2, hek]
        exact hij (hinj i j hilen (by omega) hki hjk)

theorem lookup_kvSwapRemove_self (k : String) (l : KV)
    (hnd : (l.map Prod.fst).Nodup) :
    List.lookup k (kvSwapRemove k l) = none :=
  lookup_none_of_not_mem_fst k _ (not_mem_map_fst_kvSwapRemove k l hnd)

/-- swap_remove at the level of plain key lists. -/
def listSwapRemove (k : String) (l : List String) : List String :=
  match l.findIdx? (fun x => x = k) with
  | none => l
  | some i =>
    match l.getLast? with
    | none => []
    | some last => (l.set i last).dropLast

theorem map_fst_kvSwapRemove (k : String) (l : KV) :
    (kvSwapRemove k l).map Prod.fst = listSwapRemove k (l.map Prod.fst) := by
  unfold kvSwapRemove listSwapRemove
  have hfi : (l.map Prod.fst).findIdx? (fun x => decide (x = k)) =
      l.findIdx? (fun e => decide (e.1 = k)) := by
    rw [List.findIdx?_map]
    rfl
  rw [hfi]
  cases hidx : l.findIdx? (fun e => decide (e.1 = k)) with
  | none => rfl
  | some i =>
    rw [List.getLast?_map]
    cases hlast : l.getLast? with
    | none => rfl
    | some last =>
      simp only [Option.map_some']
      rw [← List.map_set, ← List.map_dropLast]

theorem map_fst_kvInsertSorted (e : String × List Nat) (l : KV) :
    (kvInsertSorted e l).map Prod.fst = strInsertSorted e.1 (l.map Prod.fst) := by
  induction l with
  | nil => rfl
  | cons f t ih =>
    simp only [kvInsertSorted, strInsertSorted, List.map_cons]
    by_cases h : strLe e.1 f.1
    · rw [if_pos h, if_pos h]
      rfl
    · rw [if_neg h, if_neg h]
      simp only [List.map_cons, ih]

theorem map_fst_kvSortKeys (l : KV) :
    (kvSortKeys l).map Prod.fst = strSort (l.map Prod.fst) := by
  induction l with
  | nil => rfl
  | cons e t ih =>
    simp only [kvSortKeys, strSort, List.map_cons]
    rw [map_fst_kvInsertSorted, ih]

/-! ## Properties of the reload-merge (MicroKV030::reload) -/

/-- The insert loop of reload: for every on-disk namespace name, insert
the on-disk namespace store over the in-memory registry. -/
def foldIns (src : Reg) (l : List String) (r : Reg) : Reg :=
  l.foldl (fun r ns =>
    match List.lookup ns src with
    | some kv => regInsert ns kv r
    | none => r) r

/-- The removal loop of reload. -/
def foldRem (l : List String) (r : Reg) : Reg :=
  l.foldl (fun r ns => regRemove ns r) r

theorem foldIns_lookup_not_mem (src : Reg) (l : List String) (x : String)
    (hx : x ∉ l) : ∀ r : Reg, List.lookup x (foldIns src l r) = List.lookup x r := by
  induction l with
  | nil => intro r; rfl
  | cons y ys ih =>
    intro r
    simp only [List.mem_cons] at hx
    push_neg at hx
    show List.lookup x (foldIns src ys _) = _
    rw [ih hx.2]
    cases hsrc : List.lookup y src with
    | none => simp only [hsrc]
    | some kv =>
      simp only [hsrc]
      exact lookup_regInsert_ne y x kv r hx.1

theorem foldIns_lookup_mem (src : Reg) (l : List String) (x : String)
    (hx : x ∈ l) (hsome : (List.lookup x src).isSome) :
    ∀ r : Reg, List.lookup x (foldIns src l r) = List.lookup x src := by
  induction l with
  | nil => simp at hx
  | cons y ys ih =>
    intro r
    show List.lookup x (foldIns src ys _) = _
    by_cases hmem : x ∈ ys
    · exact ih hmem _
    · have hxy : x = y := by
        rcases List.mem_cons.mp hx with h | h
        · exact h
        · exact absurd h hmem
      subst hxy
      rw [foldIns_lookup_not_mem src ys x hmem]
      cases hsrc : List.lookup x src with
      | none => rw [hsrc] at hsome; simp at hsome
      | some kv =>
        simp only [hsrc]
        exact lookup_regInsert_self x kv r

theorem foldIns_no_change (src : Reg) (l : List String) :
    ∀ r : Reg, (∀ x ∈ l, ∀ kv, List.lookup x src = some kv →
      List.lookup x r = some kv) → foldIns src l r = r := by
  induction l with
  | nil => intro r _; rfl
  | cons y ys ih =>
    intro r hr
    show foldIns src ys _ = r
    cases hsrc : List.lookup y src with
    | none =>
      simp only [hsrc]
      exact ih r (fun x hx kv h => hr x (by simp [hx]) kv h)
    | some kv =>
      simp only [hsrc]
      have heq : regInsert y kv r = r :=
        regInsert_lookup_eq_self y kv r (hr y (by simp) kv hsrc)
      rw [heq]
      exact ih r (fun x hx kv h => hr x (by simp [hx]) kv h)

theorem foldRem_lookup_not_mem (l : List String) (x : String) (hx : x ∉ l) :
    ∀ r : Reg, List.lookup x (foldRem l r) = List.lookup x r := by
  induction l with
  | nil => intro r; rfl
  | cons y ys ih =>
    intro r
    simp only [List.mem_cons] at hx
    push_neg at hx
    show List.lookup x (foldRem ys _) = _
    rw [ih hx.2]
    exact lookup_regRemove_ne y x r hx.1

theorem foldRem_lookup_mem (l : List String) (x : String) (hx : x ∈ l) :
    ∀ r : Reg, List.lookup x (foldRem l r) = none := by
  induction l with
  | nil => simp at hx
  | cons y ys ih =>
    intro r
    show List.lookup x (foldRem ys _) = none
    by_cases hmem : x ∈ ys
    · exact ih hmem _
    · have hxy : x = y := by
        rcases List.mem_cons.mp hx with h | h
        · exact h
        · exact absurd h hmem
      subst hxy
      rw [foldRem_lookup_not_mem ys x hmem]
      exact lookup_regRemove_self x r

theorem reloadStore_no_file (st : MicroKV030) (fs : FileSys)
    (h : read_file_and_deserialize_bincode fs = none) : reloadStore st fs = st := by
  simp [reloadStore, h]

/-- The registry reload produces from the in-memory and on-disk states. -/
def reloadMerged (st : MicroKV030) (other : MicroKV030) : Reg :=
  foldRem ((st.storage.map Prod.fst).filter
      (fun x => !((other.storage.map Prod.fst).contains x)))
    (foldIns other.storage (other.storage.map Prod.fst) st.storage)

/-- reload unfolded on a readable file. -/
theorem reloadStore_eq_of_read (st : MicroKV030) (fs : FileSys) (other : MicroKV030)
    (h : read_file_and_deserialize_bincode fs = some other) :
    reloadStore st fs = { st with storage := reloadMerged st other } := by
  unfold reloadStore reloadMerged foldRem foldIns
  rw [h]

/-- The merged registry agrees pointwise with the on-disk registry:
on-disk namespaces were inserted or overwritten, memory-only namespaces
were removed. -/
theorem reloadMerged_lookup (st : MicroKV030) (other : MicroKV030) (ns : String) :
    List.lookup ns (reloadMerged st other) = List.lookup ns other.storage := by
  unfold reloadMerged
  by_cases hns : ns ∈ other.storage.map Prod.fst
  · have hsome := lookup_isSome_of_mem_fst ns other.storage hns
    have hnotrem : ns ∉ (st.storage.map Prod.fst).filter
        (fun x => !((other.storage.map Prod.fst).contains x)) := by
      intro hmem
      have h2 := (List.mem_filter.mp hmem).2
      simp only [List.contains, Bool.not_eq_true', List.elem_eq_mem,
        decide_eq_false_iff_not] at h2
      exact h2 hns
    rw [foldRem_lookup_not_mem _ ns hnotrem]
    exact foldIns_lookup_mem other.storage _ ns hns hsome st.storage
  · have hnone : List.lookup ns other.storage = none :=
      lookup_none_of_not_mem_fst _ _ hns
    rw [hnone]
    by_cases hc : ns ∈ st.storage.map Prod.fst
    · have hrem : ns ∈ (st.storage.map Prod.fst).filter
          (fun x => !((other.storage.map Prod.fst).contains x)) := by
        refine List.mem_filter.mpr ⟨hc, ?_⟩
        simp only [List.contains, Bool.not_eq_true', List.elem_eq_mem,
          decide_eq_false_iff_not]
        exact hns
      exact foldRem_lookup_mem _ ns hrem _
    · have hnr : ns ∉ (st.storage.map Prod.fst).filter
          (fun x => !((other.storage.map Prod.fst).contains x)) := by
        intro hmem
        exact hc (List.mem_filter.mp hmem).1
      rw [foldRem_lookup_not_mem _ ns hnr,
        foldIns_lookup_not_mem other.storage _ ns hns,
        lookup_none_of_not_mem_fst _ _ hc]

theorem reloadStore_lookup (st : MicroKV030) (fs : FileSys) (other : MicroKV030)
    (h : read_file_and_deserialize_bincode fs = some other) (ns : String) :
    List.lookup ns (reloadStore st fs).storage = List.lookup ns other.storage := by
  rw [reloadStore_eq_of_read st fs other h]
  exact reloadMerged_lookup st other ns

theorem reloadStore_version (st : MicroKV030) (fs : FileSys) :
    (reloadStore st fs).version = st.version := by
  unfold reloadStore
  cases read_file_and_deserialize_bincode fs <;> rfl

theorem reloadStore_path (st : MicroKV030) (fs : FileSys) :
    (reloadStore st fs).path = st.path := by
  unfold reloadStore
  cases read_file_and_deserialize_bincode fs <;> rfl

theorem reloadStore_nonce (st : MicroKV030) (fs : FileSys) :
    (reloadStore st fs).nonce = st.nonce := by
  unfold reloadStore
  cases read_file_and_deserialize_bincode fs <;> rfl

theorem reloadStore_pwd (st : MicroKV030) (fs : FileSys) :
    (reloadStore st fs).pwd = st.pwd := by
  unfold reloadStore
  cases read_file_and_deserialize_bincode fs <;> rfl

theorem reloadStore_is_auto_commit (st : MicroKV030) (fs : FileSys) :
    (reloadStore st fs).is_auto_commit = st.is_auto_commit := by
  unfold reloadStore
  cases read_file_and_deserialize_bincode fs <;> rfl

/-- Reloading twice from the same file is the same as reloading once. -/
theorem reloadStore_idem (st : MicroKV030) (fs : FileSys) :
    reloadStore (reloadStore st fs) fs = reloadStore st fs := by
  cases hr : read_file_and_deserialize_bincode fs with
  | none => rw [reloadStore_no_file _ _ hr]
  | some other =>
    have hlk : ∀ ns, List.lookup ns (reloadStore st fs).storage =
        List.lookup ns other.storage := reloadStore_lookup st fs other hr
    have hsub : ∀ x ∈ (reloadStore st fs).storage.map Prod.fst,
        x ∈ other.storage.map Prod.fst := by
      intro x hx
      have hs := lookup_isSome_of_mem_fst x _ hx
      rw [hlk x] at hs
      cases ho : List.lookup x other.storage with
      | none => rw [ho] at hs; simp at hs
      | some kv => exact mem_fst_of_lookup_some x _ kv ho
    have hmerged : reloadMerged (reloadStore st fs) other =
        (reloadStore st fs).storage := by
      unfold reloadMerged
      have hfilter : ((reloadStore st fs).storage.map Prod.fst).filter
          (fun x => !((other.storage.map Prod.fst).contains x)) = [] := by
        rw [List.filter_eq_nil_iff]
        intro x hx
        simp only [List.contains, Bool.not_eq_true', List.elem_eq_mem,
          decide_eq_false_iff_not, Decidable.not_not]
        exact hsub x hx
      have hins : foldIns other.storage (other.storage.map Prod.fst)
          (reloadStore st fs).storage = (reloadStore st fs).storage := by
        apply foldIns_no_change
        intro x _ kv hkv
        rw [hlk x, hkv]
      rw [hfilter, hins]
      rfl
    rw [reloadStore_eq_of_read (reloadStore st fs) fs other hr, hmerged]

/-! ## Properties of safe_storage, lock_state and the facade operations -/

theorem safe_storage_pwd (st : MicroKV030) (fs : FileSys) (ns : String) :
    (safe_storage st fs ns).pwd = st.pwd := by
  unfold safe_storage
  by_cases h : regContains ns (reloadStore st fs).storage
  · rw [if_pos h]; exact reloadStore_pwd st fs
  · rw [if_neg h]
    show (reloadStore st fs).pwd = _
    exact reloadStore_pwd st fs

theorem safe_storage_nonce (st : MicroKV030) (fs : FileSys) (ns : String) :
    (safe_storage st fs ns).nonce = st.nonce := by
  unfold safe_storage
  by_cases h : regContains ns (reloadStore st fs).storage
  · rw [if_pos h]; exact reloadStore_nonce st fs
  · rw [if_neg h]
    show (reloadStore st fs).nonce = _
    exact reloadStore_nonce st fs

theorem safe_storage_path (st : MicroKV030) (fs : FileSys) (ns : String) :
    (safe_storage st fs ns).path = st.path := by
  unfold safe_storage
  by_cases h : regContains ns (reloadStore st fs).storage
  · rw [if_pos h]; exact reloadStore_path st fs
  · rw [if_neg h]
    show (reloadStore st fs).path = _
    exact reloadStore_path st fs

theorem safe_storage_is_auto_commit (st : MicroKV030) (fs : FileSys) (ns : String) :
    (safe_storage st fs ns).is_auto_commit = st.is_auto_commit := by
  unfold safe_storage
  by_cases h : regContains ns (reloadStore st fs).storage
  · rw [if_pos h]; exact reloadStore_is_auto_commit st fs
  · rw [if_neg h]
    show (reloadStore st fs).is_auto_commit = _
    exact reloadStore_is_auto_commit st fs

theorem lock_state_pwd (st : MicroKV030) (fs : FileSys) (ns : String) :
    (lock_state st fs ns).pwd = st.pwd := by
  unfold lock_state
  rw [safe_storage_pwd, reloadStore_pwd]

theorem lock_state_nonce (st : MicroKV030) (fs : FileSys) (ns : String) :
    (lock_state st fs ns).nonce = st.nonce := by
  unfold lock_state
  rw [safe_storage_nonce, reloadStore_nonce]

theorem lock_state_path (st : MicroKV030) (fs : FileSys) (ns : String) :
    (lock_state st fs ns).path = st.path := by
  unfold lock_state
  rw [safe_storage_path, reloadStore_path]

theorem lock_state_is_auto_commit (st : MicroKV030) (fs : FileSys) (ns : String) :
    (lock_state st fs ns).is_auto_commit = st.is_auto_commit := by
  unfold lock_state
  rw [safe_storage_is_auto_commit, reloadStore_is_auto_commit]

theorem regContains_regInsert_self (ns : String) (v : KV) (r : Reg) :
    regContains ns (regInsert ns v r) = true := by
  rw [regContains_iff_mem_fst]
  exact mem_fst_of_lookup_some ns _ v (lookup_regInsert_self ns v r)

/-- The namespace data seen by a lock after safe_storage: the reloaded
data when the namespace exists, else the fresh empty namespace. -/
theorem nsData_lock_state (st : MicroKV030) (fs : FileSys) (ns : String) :
    nsData (lock_state st fs ns) ns = nsData (reloadStore st fs) ns := by
  unfold lock_state safe_storage
  rw [reloadStore_idem]
  by_cases h : regContains ns (reloadStore st fs).storage
  · rw [if_pos h]
  · rw [if_neg h]
    show (List.lookup ns (regInsert ns [] (reloadStore st fs).storage)).getD [] = _
    rw [lookup_regInsert_self]
    have hne : ns ∉ (reloadStore st fs).storage.map Prod.fst := by
      intro hm
      rw [← regContains_iff_mem_fst] at hm
      exact h hm
    unfold nsData
    rw [lookup_none_of_not_mem_fst _ _ hne]
    rfl

theorem lock_state_lookup_ne (st : MicroKV030) (fs : FileSys) (ns C : String)
    (h : C ≠ ns) : List.lookup C (lock_state st fs ns).storage =
      List.lookup C (reloadStore st fs).storage := by
  unfold lock_state safe_storage
  rw [reloadStore_idem]
  by_cases hc : regContains ns (reloadStore st fs).storage
  · rw [if_pos hc]
  · rw [if_neg hc]
    show List.lookup C (regInsert ns [] (reloadStore st fs).storage) = _
    exact lookup_regInsert_ne ns C [] _ h

theorem lock_state_no_file (st : MicroKV030) (fs : FileSys) (ns : String)
    (h : fs.file = none) :
    lock_state st fs ns = if regContains ns st.storage then st
      else { st with storage := regInsert ns [] st.storage } := by
  have hread : read_file_and_deserialize_bincode fs = none := by
    simp [read_file_and_deserialize_bincode, h]
  unfold lock_state safe_storage
  rw [reloadStore_no_file _ _ hread, reloadStore_no_file _ _ hread]

theorem ns_put_eq (st : MicroKV030) (fs : FileSys) (ns k : String) (v : JValue)
    (blob : List Nat) (henc : encode_value v st.pwd st.nonce = some blob)
    (hac : st.is_auto_commit = false) :
    ns_put st fs ns k v = some (Except.ok (),
      withStorage (lock_state st fs ns) (putStorage (lock_state st fs ns) ns k blob),
      fs) := by
  unfold ns_put
  have henc2 : encode_value v (lock_state st fs ns).pwd (lock_state st fs ns).nonce =
      some blob := by
    rw [lock_state_pwd, lock_state_nonce]
    exact henc
  rw [henc2]
  unfold ns_commit_step
  have hacw : (withStorage (lock_state st fs ns)
      (putStorage (lock_state st fs ns) ns k blob)).is_auto_commit = false := by
    show (lock_state st fs ns).is_auto_commit = false
    rw [lock_state_is_auto_commit]
    exact hac
  simp only [hacw, Bool.false_eq_true, if_false]

theorem ns_delete_eq (st : MicroKV030) (fs : FileSys) (ns k : String)
    (hac : st.is_auto_commit = false) :
    ns_delete st fs ns k = (Except.ok (),
      withStorage (lock_state st fs ns) (deleteStorage (lock_state st fs ns) ns k),
      fs) := by
  unfold ns_delete ns_commit_step
  have hacw : (withStorage (lock_state st fs ns)
      (deleteStorage (lock_state st fs ns) ns k)).is_auto_commit = false := by
    show (lock_state st fs ns).is_auto_commit = false
    rw [lock_state_is_auto_commit]
    exact hac
  simp only [hacw, Bool.false_eq_true, if_false]

theorem ns_clear_eq (st : MicroKV030) (fs : FileSys) (ns : String)
    (hac : st.is_auto_commit = false) :
    ns_clear st fs ns = (Except.ok (),
      withStorage (lock_state st fs ns) (clearStorage (lock_state st fs ns) ns),
      fs) := by
  unfold ns_clear ns_commit_step
  have hacw : (withStorage (lock_state st fs ns)
      (clearStorage (lock_state st fs ns) ns)).is_auto_commit = false := by
    show (lock_state st fs ns).is_auto_commit = false
    rw [lock_state_is_auto_commit]
    exact hac
  simp only [hacw, Bool.false_eq_true, if_false]

/-! ## Swap-remove of the most recently appended key, and more list facts -/

theorem lookup_append_right {α : Type} (k : String) (l1 l2 : List (String × α))
    (h : k ∉ l1.map Prod.fst) : List.lookup k (l1 ++ l2) = List.lookup k l2 := by
  induction l1 with
  | nil => rfl
  | cons e t ih =>
    simp only [List.map_cons, List.mem_cons] at h
    push_neg at h
    rw [List.cons_append, lookup_cons_ne k e _ h.1, ih h.2]

theorem lookup_pair_mem {α : Type} (k : String) (l : List (String × α)) (v : α)
    (h : List.lookup k l = some v) : (k, v) ∈ l := by
  induction l with
  | nil => simp [List.lookup] at h
  | cons e t ih =>
    by_cases he : k = e.1
    · rw [lookup_cons_eq k e t he] at h
      injection h with h2
      obtain ⟨e1, e2⟩ := e
      rw [he, ← h2]
      exact List.mem_cons_self _ _
    · rw [lookup_cons_ne k e t he] at h
      exact List.mem_cons_of_mem e (ih h)

theorem findIdx_append_last {α : Type} (p : α → Bool) (l : List α) (a : α)
    (hl : ∀ x ∈ l, p x = false) (ha : p a = true) :
    (l ++ [a]).findIdx? p = some l.length := by
  rw [List.findIdx?_eq_some_iff_getElem]
  have hlen : l.length < (l ++ [a]).length := by
    rw [List.length_append]
    simp
  refine ⟨hlen, ?_, ?_⟩
  · rw [List.getElem_concat_length l a l.length rfl]
    exact ha
  · intro j hj
    have hjl : j < l.length := hj
    rw [List.getElem_append_left hjl]
    rw [hl (l[j]) (List.getElem_mem hjl)]
    simp

theorem set_append_last {α : Type} (l : List α) (a : α) :
    (l ++ [a]).set l.length a = l ++ [a] := by
  induction l with
  | nil => rfl
  | cons b t ih =>
    simp only [List.cons_append, List.length_cons, List.set_cons_succ]
    rw [ih]

theorem listSwapRemove_append_self (k : String) (l : List String) (h : k ∉ l) :
    listSwapRemove k (l ++ [k]) = l := by
  unfold listSwapRemove
  have hidx : (l ++ [k]).findIdx? (fun x => decide (x = k)) = some l.length := by
    apply findIdx_append_last
    · intro x hx
      simp only [decide_eq_false_iff_not]
      intro he
      exact h (he ▸ hx)
    · simp
  rw [hidx, List.getLast?_concat]
  show ((l ++ [k]).set l.length k).dropLast = l
  rw [set_append_last, List.dropLast_concat]

theorem kvSwapRemove_append_self (k : String) (v : List Nat) (l : KV)
    (h : k ∉ l.map Prod.fst) : kvSwapRemove k (l ++ [(k, v)]) = l := by
  unfold kvSwapRemove
  have hidx : (l ++ [(k, v)]).findIdx? (fun e => decide (e.1 = k)) = some l.length := by
    apply findIdx_append_last
    · intro x hx
      simp only [decide_eq_false_iff_not]
      intro he
      exact h (List.mem_map.mpr ⟨x, hx, he⟩)
    · simp
  rw [hidx, List.getLast?_concat]
  show ((l ++ [(k, v)]).set l.length (k, v)).dropLast = l
  rw [set_append_last, List.dropLast_concat]

theorem encode_value_isSome (v : JValue) (pwd : Option (List Nat)) (nonce : List Nat)
    (hp : pwd = none ∨ ∃ p, pwd = some p ∧ p.length = 32) :
    ∃ blob, encode_value v pwd nonce = some blob := by
  rcases hp with h | ⟨p, hp, hplen⟩
  · subst h
    exact ⟨_, rfl⟩
  · subst hp
    refine ⟨secretbox_seal p nonce (bincodeEncStr (jserValue v)), ?_⟩
    simp [encode_value, hplen]

theorem nsData_nodup (st : MicroKV030) (ns : String)
    (hnod : ∀ e ∈ st.storage, ((e.2).map Prod.fst).Nodup) :
    ((nsData st ns).map Prod.fst).Nodup := by
  unfold nsData
  cases h : List.lookup ns st.storage with
  | none => simp
  | some kv =>
    have hm := lookup_pair_mem ns st.storage kv h
    simpa using hnod (ns, kv) hm

theorem nsData_regInsert (st : MicroKV030) (ns : String) (d : KV) (r : Reg)
    (h : st.storage = regInsert ns d r) : nsData st ns = d := by
  unfold nsData
  rw [h, lookup_regInsert_self]
  rfl

theorem lock_state_of_contains (st : MicroKV030) (fs : FileSys) (ns : String)
    (hf : fs.file = none) (hc : regContains ns st.storage = true) :
    lock_state st fs ns = st := by
  rw [lock_state_no_file st fs ns hf, if_pos hc]

theorem reloadStore_no_file_of_none (st : MicroKV030) (fs : FileSys)
    (hf : fs.file = none) : reloadStore st fs = st :=
  reloadStore_no_file st fs (by simp [read_file_and_deserialize_bincode, hf])

theorem nsData_lock_state_no_file (st : MicroKV030) (fs : FileSys) (ns : String)
    (hf : fs.file = none) :
    nsData (lock_state st fs ns) ns = nsData st ns := by
  rw [nsData_lock_state, reloadStore_no_file_of_none st fs hf]

theorem lock_state_lookup_ne_no_file (st : MicroKV030) (fs : FileSys) (ns C : String)
    (hf : fs.file = none) (h : C ≠ ns) :
    List.lookup C (lock_state st fs ns).storage = List.lookup C st.storage := by
  rw [lock_state_lookup_ne st fs ns C h, reloadStore_no_file_of_none st fs hf]

theorem lock_state_reload (st : MicroKV030) (fs : FileSys) (ns : String) :
    lock_state (reloadStore st fs) fs ns = lock_state st fs ns := by
  unfold lock_state
  rw [reloadStore_idem]

theorem withStorage_pwd (st : MicroKV030) (r : Reg) : (withStorage st r).pwd = st.pwd := rfl

theorem withStorage_nonce (st : MicroKV030) (r : Reg) :
    (withStorage st r).nonce = st.nonce := rfl

theorem withStorage_is_auto_commit (st : MicroKV030) (r : Reg) :
    (withStorage st r).is_auto_commit = st.is_auto_commit := rfl

theorem nsData_put_state (stL : MicroKV030) (ns k : String) (blob : List Nat) :
    nsData (withStorage stL (putStorage stL ns k blob)) ns =
      kvInsert k blob (if kvContains k (nsData stL ns) then kvSwapRemove k (nsData stL ns)
        else nsData stL ns) :=
  nsData_regInsert _ ns _ stL.storage rfl

theorem nsData_delete_state (stL : MicroKV030) (ns k : String) :
    nsData (withStorage stL (deleteStorage stL ns k)) ns =
      kvSwapRemove k (nsData stL ns) :=
  nsData_regInsert _ ns _ stL.storage rfl

theorem nsData_clear_state (stL : MicroKV030) (ns : String) :
    nsData (withStorage stL (clearStorage stL ns)) ns = [] :=
  nsData_regInsert _ ns _ stL.storage rfl

theorem contains_put_state (stL : MicroKV030) (ns k : String) (blob : List Nat) :
    regContains ns (withStorage stL (putStorage stL ns k blob)).storage = true :=
  regContains_regInsert_self ns _ stL.storage

theorem contains_delete_state (stL : MicroKV030) (ns k : String) :
    regContains ns (withStorage stL (deleteStorage stL ns k)).storage = true :=
  regContains_regInsert_self ns _ stL.storage

theorem contains_clear_state (stL : MicroKV030) (ns : String) :
    regContains ns (withStorage stL (clearStorage stL ns)).storage = true :=
  regContains_regInsert_self ns _ stL.storage

/-! ## Error shapes of persistence, commit, migrate and open -/

/-- Any write settles the file to the new bytes followed by some tail
(empty when the file was absent, the old content's overhang otherwise). -/
theorem writeNoTruncate_as_append (old : Option (List Nat)) (bytes : List Nat) :
    ∃ rest, writeNoTruncate old bytes = bytes ++ rest := by
  cases old with
  | none => exact ⟨[], (List.append_nil bytes).symm⟩
  | some prev => exact ⟨prev.drop bytes.length, rfl⟩

theorem persist_serialize_ok (path : String) (st : MicroKV030) (fs fs2 : FileSys)
    (h : persist_serialize path st fs = Except.ok fs2) :
    fs2 = { fs with parentDirOk := true, file := some (writeNoTruncate fs.file (encodeStoreBytes st)) } := by
  unfold persist_serialize at h
  by_cases h1 : path = ""
  · rw [if_pos h1] at h
    exact absurd h (by simp)
  · rw [if_neg h1] at h
    by_cases h2 : fs.ioFail = true
    · rw [if_pos h2] at h
      exact absurd h (by simp)
    · rw [if_neg h2] at h
      injection h with h3
      exact h3.symm

theorem persist_serialize_error_shape (path : String) (st : MicroKV030) (fs : FileSys)
    (e : KVError) (h : persist_serialize path st fs = Except.error e) :
    e.error = ErrorType.FileError := by
  unfold persist_serialize at h
  by_cases h1 : path = ""
  · rw [if_pos h1] at h
    injection h with h3
    rw [← h3]
  · rw [if_neg h1] at h
    by_cases h2 : fs.ioFail = true
    · rw [if_pos h2] at h
      injection h with h3
      rw [← h3]
    · rw [if_neg h2] at h
      exact absurd h (by simp)

theorem commit_ioFail (st : MicroKV030) (fs : FileSys) (hio : fs.ioFail = true) :
    ∃ e, st.commit fs = Except.error e ∧ e.error = ErrorType.FileError := by
  unfold MicroKV030.commit persist_serialize
  by_cases hp : st.path = ""
  · rw [if_pos hp]
    exact ⟨⟨ErrorType.FileError, some "The store file parent path is not sound"⟩, rfl, rfl⟩
  · rw [if_neg hp, if_pos hio]
    exact ⟨⟨ErrorType.FileError, none⟩, rfl, rfl⟩

theorem ns_commit_step_fail (st3 : MicroKV030) (fs : FileSys)
    (hac : st3.is_auto_commit = true) (hio : fs.ioFail = true) :
    ∃ e, ns_commit_step st3 fs = (Except.error e, st3, fs) ∧
      e.error = ErrorType.FileError := by
  obtain ⟨e, hc, he⟩ := commit_ioFail st3 fs hio
  refine ⟨e, ?_, he⟩
  unfold ns_commit_step
  simp only [hac, reduceIte]
  rw [hc]

theorem migrate_no_file (fs : FileSys) (hf : fs.file = none) :
    Migrate.migrate fs = Except.error ⟨ErrorType.FileError, none⟩ := by
  unfold Migrate.migrate
  rw [hf]

theorem migrate_decode_none (fs : FileSys) (raw : List Nat)
    (hf : fs.file = some raw) (hd : decodeStoreBytes raw = none) :
    Migrate.migrate fs = Except.error
      ⟨ErrorType.MigrateError "<0.3.0" currentVersion, some "Not support migrate"⟩ := by
  have h1 : try_current raw = Except.error
      ⟨ErrorType.MigrateError "0.3.0" currentVersion,
        some "Failed to deserialize to 0.3.0"⟩ := by
    unfold try_current
    rw [hd]
  unfold Migrate.migrate
  simp only [hf]
  rw [h1]
  rfl

theorem migrate_decode_some (fs : FileSys) (raw : List Nat) (st : MicroKV030)
    (hf : fs.file = some raw) (hd : decodeStoreBytes raw = some st) :
    Migrate.migrate fs = Except.ok st := by
  have h1 : try_current raw = Except.ok st := by
    unfold try_current
    rw [hd]
  unfold Migrate.migrate
  simp only [hf]
  rw [h1]

theorem migrate_error_shape (fs : FileSys) (e : KVError)
    (h : Migrate.migrate fs = Except.error e) :
    e.error = ErrorType.FileError ∨ ∃ f t, e.error = ErrorType.MigrateError f t := by
  cases hf : fs.file with
  | none =>
    rw [migrate_no_file fs hf] at h
    injection h with h3
    left
    rw [← h3]
  | some raw =>
    cases hd : decodeStoreBytes raw with
    | some st =>
      rw [migrate_decode_some fs raw st hf hd] at h
      exact absurd h (by simp)
    | none =>
      rw [migrate_decode_none fs raw hf hd] at h
      injection h with h3
      right
      exact ⟨"<0.3.0", currentVersion, by rw [← h3]⟩

theorem open_error_not_crypto (dbname base : String) (nonce : List Nat)
    (fs : FileSys) (e : KVError)
    (h : open_with_base_path dbname base nonce fs = Except.error e) :
    e.error ≠ ErrorType.CryptoError := by
  unfold open_with_base_path at h
  by_cases hf : fs.file.isSome = true
  · rw [if_pos hf] at h
    cases hm : Migrate.migrate fs with
    | error em =>
      rw [hm] at h
      have h2 : Except.error em = Except.error e := h
      injection h2 with h3
      rcases migrate_error_shape fs em hm with h4 | ⟨f, t, h4⟩
      · rw [← h3, h4]
        simp
      · rw [← h3, h4]
        simp
    | ok kv0 =>
      rw [hm] at h
      have h2 : (match ({ kv0 with
            path := get_db_path_with_base_path dbname base } : MicroKV030).commit fs with
          | Except.ok fs2 => Except.ok (({ kv0 with
              path := get_db_path_with_base_path dbname base } : MicroKV030), fs2)
          | Except.error e2 => Except.error e2) = Except.error e := h
      cases hc : ({ kv0 with
          path := get_db_path_with_base_path dbname base } : MicroKV030).commit fs with
      | ok fs2 =>
        rw [hc] at h2
        have h5 : Except.ok (({ kv0 with
            path := get_db_path_with_base_path dbname base } : MicroKV030), fs2) =
            Except.error e := h2
        exact Except.noConfusion h5
      | error e2 =>
        rw [hc] at h2
        have h5 : Except.error e2 = Except.error e := h2
        injection h5 with h6
        rw [← h6, persist_serialize_error_shape _ _ _ e2 hc]
        simp
  · rw [if_neg hf] at h
    exact Except.noConfusion h

theorem ns_keys_val (st : MicroKV030) (fs : FileSys) (ns : String) :
    (ns_keys st fs ns).1 = (nsData (lock_state st fs ns) ns).map Prod.fst := rfl

theorem ns_sorted_keys_val (st : MicroKV030) (fs : FileSys) (ns : String) :
    (ns_sorted_keys st fs ns).1 =
      (kvSortKeys (nsData (lock_state st fs ns) ns)).map Prod.fst := rfl

theorem ns_exists_val (st : MicroKV030) (fs : FileSys) (ns k : String) :
    (ns_exists st fs ns k).1 = kvContains k (nsData (lock_state st fs ns) ns) := rfl

theorem withStorage_lock_pwd (st : MicroKV030) (fs : FileSys) (ns : String) (r : Reg) :
    (withStorage (lock_state st fs ns) r).pwd = st.pwd := by
  show (lock_state st fs ns).pwd = st.pwd
  exact lock_state_pwd st fs ns

theorem withStorage_lock_nonce (st : MicroKV030) (fs : FileSys) (ns : String) (r : Reg) :
    (withStorage (lock_state st fs ns) r).nonce = st.nonce := by
  show (lock_state st fs ns).nonce = st.nonce
  exact lock_state_nonce st fs ns

theorem withStorage_lock_is_auto_commit (st : MicroKV030) (fs : FileSys) (ns : String)
    (r : Reg) :
    (withStorage (lock_state st fs ns) r).is_auto_commit = st.is_auto_commit := by
  show (lock_state st fs ns).is_auto_commit = st.is_auto_commit
  exact lock_state_is_auto_commit st fs ns

/-! ## Concrete sample inputs used to evaluate the development -/

/-- A 24-byte nonce. -/
def egNonce : List Nat := List.replicate 24 0

/-- A 32-byte password hash. -/
def egPwd : List Nat := List.replicate 32 7

/-- The JSON value obj with field "a" holding 42. -/
def egValue : JValue := JValue.obj (JObject.cons [97] (JValue.num 42) JObject.nil)

/-- The ciphertext encode_value produces for egValue under egPwd/egNonce. -/
def egBlob : List Nat := secretbox_seal egPwd egNonce (bincodeEncStr (jserValue egValue))

/-- An empty unencrypted store at path "p", auto-commit off. -/
def egStore : MicroKV030 := MicroKV030.create "p" none egNonce false []

/-- The empty store with auto-commit on. -/
def egStoreAuto : MicroKV030 := MicroKV030.create "p" none egNonce true []

/-- A store holding one namespace with one entry. -/
def egStoreData : MicroKV030 :=
  MicroKV030.create "p" none egNonce false [("ns1", [("a", [1, 2])])]

/-- A filesystem with no backing file and working I/O. -/
def egFS : FileSys := { file := none, parentDirOk := true, ioFail := false }

/-- A filesystem whose writes fail. -/
def egFSio : FileSys := { file := none, parentDirOk := true, ioFail := true }

/-- A filesystem whose backing file is longer than any sample
serialization (500 filler bytes). -/
def egLongFS : FileSys :=
  { file := some (List.replicate 500 9), parentDirOk := true, ioFail := false }

/-- The filesystem after committing egStore over the long backing file:
the serialization overwrites the front, the old tail survives. -/
def egLongCommitFS : FileSys :=
  { file := some (writeNoTruncate egLongFS.file (encodeStoreBytes egStore)),
    parentDirOk := true, ioFail := false }

/-- An on-disk store snapshot differing from the in-memory samples. -/
def egDisk : MicroKV030 :=
  { version := "0.3.0", path := "p", storage := [("d", [("k", [9])])],
    nonce := egNonce, pwd := none, is_auto_commit := false }

/-- A filesystem whose backing file is the serialized egDisk. -/
def egDiskFS : FileSys :=
  { file := some (encodeStoreBytes egDisk), parentDirOk := true, ioFail := false }

/-- A legacy flat single-namespace store. -/
def egLegacy : MicroKVLessThan027 :=
  { path := "p", storage := [("k", [7])], nonce := egNonce, pwd := none,
    is_auto_commit := false }

/-- A filesystem whose backing file is in the legacy flat layout. -/
def egLegacyFS : FileSys :=
  { file := some (encodeLegacyBytes egLegacy), parentDirOk := true, ioFail := false }

/-- One put through the facade, keeping only the resulting state. -/
def putStep (s : MicroKV030 × FileSys) (ns k : String) (v : JValue) :
    MicroKV030 × FileSys :=
  match ns_put s.1 s.2 ns k v with
  | some (_, st, fs) => (st, fs)
  | none => s

/-- One delete through the facade, keeping only the resulting state. -/
def delStep (s : MicroKV030 × FileSys) (ns k : String) : MicroKV030 × FileSys :=
  ((ns_delete s.1 s.2 ns k).2.1, (ns_delete s.1 s.2 ns k).2.2)

/-- Put "a", "b", "c" into the default namespace of the empty sample store,
then delete "a". -/
def egC7run : MicroKV030 × FileSys :=
  delStep (putStep (putStep (putStep (egStore, egFS) "" "a" JValue.null)
    "" "b" JValue.null) "" "c" JValue.null) "" "a"

/-- The store record migrate_to_027 builds (its local `microkv`). -/
def mk027 (kv : MicroKVLessThan027) : MicroKV030 :=
  { version := "0.2.7", path := kv.path, storage := regInsert "" kv.storage [],
    nonce := kv.nonce, pwd := kv.pwd, is_auto_commit := kv.is_auto_commit }

/-- The serialized form of the sample object value is the eight characters
of the compact rendering. -/
theorem egValue_len : (jserValue egValue).length = 8 := by
  rw [show egValue = JValue.obj (JObject.cons [97] (JValue.num 42) JObject.nil) from rfl]
  rw [jserValue]
  rw [jserObject]
  rw [jserValue]
  simp [jstrLit, escapeString, escapeChar, intDecimal, natDecimal]

/-- The serialized form of null is the four characters of "null". -/
theorem egNull_len : (jserValue JValue.null).length = 4 := by
  rw [jserValue]
  rfl

/-- The namespace data a put leaves behind: some prefix not holding the key,
with the fresh entry appended (remove-then-insert under unique keys). -/
theorem ns_put_state_spec (stL : MicroKV030) (ns k : String) (blob : List Nat)
    (hnd : ((nsData stL ns).map Prod.fst).Nodup) :
    ∃ rest, k ∉ rest.map Prod.fst ∧
      nsData (withStorage stL (putStorage stL ns k blob)) ns = rest ++ [(k, blob)] := by
  refine ⟨if kvContains k (nsData stL ns) then kvSwapRemove k (nsData stL ns)
    else nsData stL ns, ?_, ?_⟩
  · by_cases hc : kvContains k (nsData stL ns) = true
    · rw [if_pos hc]
      exact not_mem_map_fst_kvSwapRemove k _ hnd
    · rw [if_neg hc]
      intro hm
      exact hc ((kvContains_iff_mem_fst k _).mpr hm)
  · rw [nsData_put_state]
    apply kvInsert_of_not_mem
    by_cases hc : kvContains k (nsData stL ns) = true
    · rw [if_pos hc]
      exact not_mem_map_fst_kvSwapRemove k _ hnd
    · rw [if_neg hc]
      intro hm
      exact hc ((kvContains_iff_mem_fst k _).mpr hm)

theorem kvContains_append_self (k : String) (v : List Nat) (rest : KV) :
    kvContains k (rest ++ [(k, v)]) = true := by
  rw [kvContains_iff_mem_fst, List.map_append]
  exact List.mem_append_right _ (by simp)

/-! ## The claims -/

/-- C1: Value codec round-trip: for every JSON-encodable value V and every
optional password P (absent, or a 32-byte hashed key), decoding the blob
produced by encoding V under P and the store nonce, with the same P and
nonce, yields V again. -/
theorem C1_value_codec_roundtrip (v : JValue) (pwd : Option (List Nat))
    (nonce : List Nat)
    (hp : pwd = none ∨ ∃ p, pwd = some p ∧ p.length = 32)
    (hlen : (jserValue v).length < 2 ^ 64) :
    ∃ blob, encode_value v pwd nonce = some blob ∧
      decode_value blob pwd nonce = Except.ok v :=
  decode_value_encode_value v pwd nonce hp hlen

/-- C1 witness: the round-trip at a concrete value, password and nonce. -/
theorem C1_value_codec_roundtrip_witness :
    ((some egPwd : Option (List Nat)) = none ∨
      ∃ p, (some egPwd : Option (List Nat)) = some p ∧ p.length = 32) ∧
    (jserValue egValue).length < 2 ^ 64 ∧
    ∃ blob, encode_value egValue (some egPwd) egNonce = some blob ∧
      decode_value blob (some egPwd) egNonce = Except.ok egValue :=
  ⟨Or.inr ⟨egPwd, rfl, by decide⟩, by rw [egValue_len]; norm_num,
    C1_value_codec_roundtrip egValue (some egPwd) egNonce
      (Or.inr ⟨egPwd, rfl, by decide⟩) (by rw [egValue_len]; norm_num)⟩

/-- C2: decoding a blob encoded under P1 with a different non-empty password
P2 fails with CryptoError, and opening the store file never fails with
CryptoError — a wrong password surfaces only at decode (get) time. -/
theorem C2_wrong_password (v : JValue) (p1 p2 nonce blob : List Nat)
    (h1 : p1.length = 32) (h2 : p2 ≠ []) (hne : p1 ≠ p2)
    (henc : encode_value v (some p1) nonce = some blob) :
    (∃ e, decode_value blob (some p2) nonce = Except.error e ∧
      e.error = ErrorType.CryptoError) ∧
    ∀ dbname base nonce2 fs e2,
      open_with_base_path dbname base nonce2 fs = Except.error e2 →
      e2.error ≠ ErrorType.CryptoError :=
  ⟨decode_value_wrong_pwd p1 p2 nonce blob v h1 hne henc,
    fun dbname base nonce2 fs e2 h => open_error_not_crypto dbname base nonce2 fs e2 h⟩

/-- C2 witness: a concrete value sealed under egPwd and decoded under the
one-byte password. -/
theorem C2_wrong_password_witness :
    egPwd.length = 32 ∧ ([1] : List Nat) ≠ [] ∧ egPwd ≠ [1] ∧
    encode_value egValue (some egPwd) egNonce = some egBlob ∧
    ((∃ e, decode_value egBlob (some [1]) egNonce = Except.error e ∧
      e.error = ErrorType.CryptoError) ∧
    ∀ dbname base nonce2 fs e2,
      open_with_base_path dbname base nonce2 fs = Except.error e2 →
      e2.error ≠ ErrorType.CryptoError) :=
  ⟨by decide, by decide, by decide, rfl,
    C2_wrong_password egValue egPwd [1] egNonce egBlob (by decide) (by decide)
      (by decide) rfl⟩

/-- C3 (amended): the migration chain in force refuses every pre-0.3.0 file —
a backing file that does not parse as the 0.3.0 layout makes open fail with
MigrateError from "<0.3.0" to the crate version, wrapped as "Not support
migrate" — while the 0.2.7-era transform still in the tree (migrate_to_027)
performs exactly the spec's wrap: the flat mapping becomes the sole
default-namespace ("") entry of a fresh registry, path, nonce, password and
auto-commit are preserved, version "0.2.7" is tagged and the result is
committed. -/
theorem C3_legacy_migration (kv : MicroKVLessThan027) (fs : FileSys)
    (hpath : kv.path ≠ "") (hio : fs.ioFail = false) :
    (∀ raw, fs.file = some raw → decodeStoreBytes raw = none →
      Migrate.migrate fs = Except.error
        ⟨ErrorType.MigrateError "<0.3.0" currentVersion, some "Not support migrate"⟩) ∧
    ∃ st fs2, migrate_to_027 kv fs = Except.ok (st, fs2) ∧
      st.version = "0.2.7" ∧ st.path = kv.path ∧ st.nonce = kv.nonce ∧
      st.pwd = kv.pwd ∧ st.is_auto_commit = kv.is_auto_commit ∧
      List.lookup "" st.storage = some kv.storage ∧
      (∀ ns, ns ≠ "" → List.lookup ns st.storage = none) ∧
      fs2.file = some (writeNoTruncate fs.file (encodeStoreBytes st)) := by
  constructor
  · intro raw hf hd
    exact migrate_decode_none fs raw hf hd
  · have hio2 : ¬ (fs.ioFail = true) := by
      rw [hio]
      exact Bool.false_ne_true
    have hps : persist_serialize kv.path (mk027 kv) fs =
        Except.ok (FileSys.mk (some (writeNoTruncate fs.file
          (encodeStoreBytes (mk027 kv)))) true fs.ioFail) := by
      unfold persist_serialize
      rw [if_neg hpath, if_neg hio2]
    have hm : migrate_to_027 kv fs = Except.ok (mk027 kv,
        FileSys.mk (some (writeNoTruncate fs.file
          (encodeStoreBytes (mk027 kv)))) true fs.ioFail) := by
      simp only [migrate_to_027]
      unfold mk027 at hps
      rw [hps]
      rfl
    refine ⟨mk027 kv, _, hm, rfl, rfl, rfl, rfl, rfl, ?_, ?_, rfl⟩
    · exact lookup_regInsert_self "" kv.storage []
    · intro ns hns
      show List.lookup ns [("", kv.storage)] = none
      rw [lookup_cons_ne ns ("", kv.storage) [] hns]
      rfl

/-- C3 witness: the amended statement at the concrete legacy store. -/
theorem C3_legacy_migration_witness :
    egLegacy.path ≠ "" ∧ egFS.ioFail = false ∧
    ((∀ raw, egFS.file = some raw → decodeStoreBytes raw = none →
      Migrate.migrate egFS = Except.error
        ⟨ErrorType.MigrateError "<0.3.0" currentVersion, some "Not support migrate"⟩) ∧
    ∃ st fs2, migrate_to_027 egLegacy egFS = Except.ok (st, fs2) ∧
      st.version = "0.2.7" ∧ st.path = egLegacy.path ∧ st.nonce = egLegacy.nonce ∧
      st.pwd = egLegacy.pwd ∧ st.is_auto_commit = egLegacy.is_auto_commit ∧
      List.lookup "" st.storage = some egLegacy.storage ∧
      (∀ ns, ns ≠ "" → List.lookup ns st.storage = none) ∧
      fs2.file = some (writeNoTruncate egFS.file (encodeStoreBytes st))) :=
  ⟨by decide, rfl, C3_legacy_migration egLegacy egFS (by decide) rfl⟩

/-- C3 counterexample: the claim as stated is false — a concrete backing
file in the legacy flat bincode layout is refused by open_with_base_path
with a MigrateError instead of producing a store exposing the flat mapping
under the default namespace. -/
theorem C3_legacy_migration_counterexample :
    open_with_base_path "db" "base" egNonce egLegacyFS = Except.error
      ⟨ErrorType.MigrateError "<0.3.0" currentVersion, some "Not support migrate"⟩ ∧
    ∀ st fs2, open_with_base_path "db" "base" egNonce egLegacyFS ≠
      Except.ok (st, fs2) := by
  have h1 : open_with_base_path "db" "base" egNonce egLegacyFS = Except.error
      ⟨ErrorType.MigrateError "<0.3.0" currentVersion, some "Not support migrate"⟩ := rfl
  refine ⟨h1, fun st fs2 h => ?_⟩
  rw [h1] at h
  exact Except.noConfusion h

/-- C5: every facade operation first reconciles the in-memory registry with
the on-disk snapshot: after the reload the registry agrees pointwise with the
deserialized file (every on-disk namespace inserted or overwritten, every
memory-only namespace removed), and each operation on a handle coincides with
the same operation run on the explicitly reloaded store. -/
theorem C5_reload_merge (st d : MicroKV030) (fs : FileSys) (ns k : String)
    (v : JValue) (h : read_file_and_deserialize_bincode fs = some d) :
    (∀ nsx, List.lookup nsx (reloadStore st fs).storage =
      List.lookup nsx d.storage) ∧
    ns_get (reloadStore st fs) fs ns k = ns_get st fs ns k ∧
    ns_exists (reloadStore st fs) fs ns k = ns_exists st fs ns k ∧
    ns_keys (reloadStore st fs) fs ns = ns_keys st fs ns ∧
    ns_sorted_keys (reloadStore st fs) fs ns = ns_sorted_keys st fs ns ∧
    ns_put (reloadStore st fs) fs ns k v = ns_put st fs ns k v ∧
    ns_delete (reloadStore st fs) fs ns k = ns_delete st fs ns k ∧
    ns_clear (reloadStore st fs) fs ns = ns_clear st fs ns := by
  refine ⟨fun nsx => reloadStore_lookup st fs d h nsx, ?_, ?_, ?_, ?_, ?_, ?_, ?_⟩
  · unfold ns_get
    rw [lock_state_reload]
  · unfold ns_exists
    rw [lock_state_reload]
  · unfold ns_keys
    rw [lock_state_reload]
  · unfold ns_sorted_keys
    rw [lock_state_reload]
  · unfold ns_put
    rw [lock_state_reload]
  · unfold ns_delete
    rw [lock_state_reload]
  · unfold ns_clear
    rw [lock_state_reload]

/-- C5 witness: the reload-merge at a concrete in-memory store and on-disk
snapshot. -/
theorem C5_reload_merge_witness :
    read_file_and_deserialize_bincode egDiskFS = some egDisk ∧
    ((∀ nsx, List.lookup nsx (reloadStore egStoreData egDiskFS).storage =
      List.lookup nsx egDisk.storage) ∧
    ns_get (reloadStore egStoreData egDiskFS) egDiskFS "d" "k" =
      ns_get egStoreData egDiskFS "d" "k" ∧
    ns_exists (reloadStore egStoreData egDiskFS) egDiskFS "d" "k" =
      ns_exists egStoreData egDiskFS "d" "k" ∧
    ns_keys (reloadStore egStoreData egDiskFS) egDiskFS "d" =
      ns_keys egStoreData egDiskFS "d" ∧
    ns_sorted_keys (reloadStore egStoreData egDiskFS) egDiskFS "d" =
      ns_sorted_keys egStoreData egDiskFS "d" ∧
    ns_put (reloadStore egStoreData egDiskFS) egDiskFS "d" "k" JValue.null =
      ns_put egStoreData egDiskFS "d" "k" JValue.null ∧
    ns_delete (reloadStore egStoreData egDiskFS) egDiskFS "d" "k" =
      ns_delete egStoreData egDiskFS "d" "k" ∧
    ns_clear (reloadStore egStoreData egDiskFS) egDiskFS "d" =
      ns_clear egStoreData egDiskFS "d") :=
  ⟨rfl, C5_reload_merge egStoreData egDisk egDiskFS "d" "k" JValue.null rfl⟩

/-- C6 (amended): after commit succeeds the backing file holds the store's
serialization written from the start of the previous content — with the
tail of a longer previous file surviving, since the source opens with
write(true).create(true) and never truncates.  The written bytes exclude
the password and are identical for every password value, any fresh
deserialization of the file yields the store's logical content with the
password cleared (bincode ignores the stale tail), the parent directory
exists afterwards, and when no file existed the file is exactly the
serialization. -/
theorem C6_commit_postcondition (st : MicroKV030) (fs fs2 : FileSys)
    (hwf : wfStore st) (h : st.commit fs = Except.ok fs2) :
    fs2.file = some (writeNoTruncate fs.file (encodeStoreBytes st)) ∧
    fs2.parentDirOk = true ∧
    (∀ p q, encodeStoreBytes { st with pwd := p } =
      encodeStoreBytes { st with pwd := q }) ∧
    (∀ bytes, fs2.file = some bytes →
      decodeStoreBytes bytes = some { st with pwd := none }) ∧
    (fs.file = none → fs2.file = some (encodeStoreBytes st)) := by
  have h2 := persist_serialize_ok st.path st fs fs2 h
  subst h2
  refine ⟨rfl, rfl, fun p q => encodeStoreBytes_pwd_irrelevant st p q, ?_, ?_⟩
  · intro bytes hb
    have hb2 : some (writeNoTruncate fs.file (encodeStoreBytes st)) = some bytes := hb
    injection hb2 with h3
    rw [← h3]
    obtain ⟨rest, hrw⟩ := writeNoTruncate_as_append fs.file (encodeStoreBytes st)
    rw [hrw]
    exact decodeStoreBytes_enc_append st rest hwf
  · intro hfn
    show some (writeNoTruncate fs.file (encodeStoreBytes st)) =
      some (encodeStoreBytes st)
    rw [hfn]
    rfl

/-- C6 witness: the amended commit postcondition at the concrete empty
store written over a longer pre-existing backing file. -/
theorem C6_commit_postcondition_witness :
    wfStore egStore ∧ egStore.commit egLongFS = Except.ok egLongCommitFS ∧
    (egLongCommitFS.file =
      some (writeNoTruncate egLongFS.file (encodeStoreBytes egStore)) ∧
    egLongCommitFS.parentDirOk = true ∧
    (∀ p q, encodeStoreBytes { egStore with pwd := p } =
      encodeStoreBytes { egStore with pwd := q }) ∧
    (∀ bytes, egLongCommitFS.file = some bytes →
      decodeStoreBytes bytes = some { egStore with pwd := none }) ∧
    (egLongFS.file = none → egLongCommitFS.file = some (encodeStoreBytes egStore))) :=
  ⟨by decide, rfl,
    C6_commit_postcondition egStore egLongFS egLongCommitFS (by decide) rfl⟩

/-- C6 counterexample: the claim's "the backing file contains exactly the
serialization" is false of the program — committing the sample store over
a longer pre-existing file succeeds, yet the resulting file is not the
serialization alone: the old content's trailing bytes survive the
non-truncating write. -/
theorem C6_commit_postcondition_counterexample :
    ∃ fs2, egStore.commit egLongFS = Except.ok fs2 ∧
      fs2.file ≠ some (encodeStoreBytes egStore) := by
  refine ⟨egLongCommitFS, rfl, ?_⟩
  intro hcontra
  have h2 : some (writeNoTruncate egLongFS.file (encodeStoreBytes egStore)) =
      some (encodeStoreBytes egStore) := hcontra
  injection h2 with h3
  exact absurd h3 (by decide)

/-- C7 (amended): sorted_keys() is exactly the lexical sort of keys(),
recomputed per call without mutating the stored order, and putting a fresh
key appends it at the end of the iteration order; after a delete, however,
keys() follows the swap-remove order, not insertion order (see the
counterexample). -/
theorem C7_ordering (st : MicroKV030) (fs : FileSys) (ns k : String) (v : JValue)
    (hfile : fs.file = none) (hac : st.is_auto_commit = false)
    (hp : st.pwd = none ∨ ∃ p, st.pwd = some p ∧ p.length = 32)
    (hk : k ∉ (ns_keys st fs ns).1) :
    (ns_sorted_keys st fs ns).1 = strSort (ns_keys st fs ns).1 ∧
    (ns_sorted_keys st fs ns).2 = (ns_keys st fs ns).2 ∧
    ∃ st1, ns_put st fs ns k v = some (Except.ok (), st1, fs) ∧
      (ns_keys st1 fs ns).1 = (ns_keys st fs ns).1 ++ [k] := by
  have hkm : k ∉ (nsData (lock_state st fs ns) ns).map Prod.fst := hk
  refine ⟨?_, rfl, ?_⟩
  · rw [ns_sorted_keys_val, ns_keys_val]
    exact map_fst_kvSortKeys _
  · obtain ⟨blob, henc⟩ := encode_value_isSome v st.pwd st.nonce hp
    refine ⟨_, ns_put_eq st fs ns k v blob henc hac, ?_⟩
    have hcont : ¬ (kvContains k (nsData (lock_state st fs ns) ns) = true) := by
      intro htrue
      exact hkm ((kvContains_iff_mem_fst k _).mp htrue)
    rw [ns_keys_val, nsData_lock_state_no_file _ fs ns hfile, nsData_put_state,
      if_neg hcont, kvInsert_of_not_mem k blob _ hkm, List.map_append, ns_keys_val]
    rfl

/-- C7 witness: the ordering facts at the concrete one-entry store. -/
theorem C7_ordering_witness :
    egFS.file = none ∧ egStoreData.is_auto_commit = false ∧
    (egStoreData.pwd = none ∨ ∃ p, egStoreData.pwd = some p ∧ p.length = 32) ∧
    "b" ∉ (ns_keys egStoreData egFS "ns1").1 ∧
    ((ns_sorted_keys egStoreData egFS "ns1").1 =
      strSort (ns_keys egStoreData egFS "ns1").1 ∧
    (ns_sorted_keys egStoreData egFS "ns1").2 = (ns_keys egStoreData egFS "ns1").2 ∧
    ∃ st1, ns_put egStoreData egFS "ns1" "b" JValue.null =
        some (Except.ok (), st1, egFS) ∧
      (ns_keys st1 egFS "ns1").1 = (ns_keys egStoreData egFS "ns1").1 ++ ["b"]) :=
  ⟨rfl, rfl, Or.inl rfl, by decide,
    C7_ordering egStoreData egFS "ns1" "b" JValue.null rfl rfl (Or.inl rfl)
      (by decide)⟩

/-- C7 counterexample: the claim's "keys() returns the keys in insertion
order including after intervening delete operations" is false — after
putting "a", "b", "c" and deleting "a", keys() is ["c", "b"] (the last key
was swapped into the removed slot), not the insertion order ["b", "c"]. -/
theorem C7_ordering_counterexample :
    (ns_keys egC7run.1 egC7run.2 "").1 = ["c", "b"] ∧
    (ns_keys egC7run.1 egC7run.2 "").1 ≠ ["b", "c"] := by
  have h1 : (ns_keys egC7run.1 egC7run.2 "").1 = ["c", "b"] := rfl
  refine ⟨h1, ?_⟩
  rw [h1]
  decide

/-- C8: after clear() succeeds keys() is empty and exists(k) is false for
every key, and the wipe pass zeroes every stored ciphertext blob before the
entries are removed. -/
theorem C8_clear (st : MicroKV030) (fs : FileSys) (ns : String)
    (hfile : fs.file = none) (hac : st.is_auto_commit = false) :
    ∃ st3, ns_clear st fs ns = (Except.ok (), st3, fs) ∧
      (ns_keys st3 fs ns).1 = [] ∧
      (∀ k, (ns_exists st3 fs ns k).1 = false) ∧
      (∀ e ∈ (kvClearWipe (nsData (lock_state st fs ns) ns)).1, ∀ b ∈ e.2, b = 0) ∧
      (kvClearWipe (nsData (lock_state st fs ns) ns)).2 = [] := by
  refine ⟨_, ns_clear_eq st fs ns hac, ?_, ?_, ?_, rfl⟩
  · rw [ns_keys_val, nsData_lock_state_no_file _ fs ns hfile, nsData_clear_state]
    rfl
  · intro k
    rw [ns_exists_val, nsData_lock_state_no_file _ fs ns hfile, nsData_clear_state]
    rfl
  · intro e he b hb
    simp only [kvClearWipe] at he
    obtain ⟨x, hx, hxe⟩ := List.mem_map.mp he
    rw [← hxe] at hb
    simp only at hb
    obtain ⟨y, hy, hyb⟩ := List.mem_map.mp hb
    exact hyb.symm

/-- C8 witness: clearing the concrete one-entry namespace. -/
theorem C8_clear_witness :
    egFS.file = none ∧ egStoreData.is_auto_commit = false ∧
    ∃ st3, ns_clear egStoreData egFS "ns1" = (Except.ok (), st3, egFS) ∧
      (ns_keys st3 egFS "ns1").1 = [] ∧
      (∀ k, (ns_exists st3 egFS "ns1" k).1 = false) ∧
      (∀ e ∈ (kvClearWipe (nsData (lock_state egStoreData egFS "ns1") "ns1")).1,
        ∀ b ∈ e.2, b = 0) ∧
      (kvClearWipe (nsData (lock_state egStoreData egFS "ns1") "ns1")).2 = [] :=
  ⟨rfl, rfl, C8_clear egStoreData egFS "ns1" rfl rfl⟩

/-- C10: auto-commit is not atomic with the in-memory mutation: with
auto-commit enabled and a failing persist step, put, delete and clear each
return the commit FileError while the in-memory namespace already reflects
the mutation — the inserted entry is present, the removed entry is gone and
the cleared namespace is empty. -/
theorem C10_auto_commit_not_atomic (st : MicroKV030) (fs : FileSys) (ns k : String)
    (v : JValue)
    (hfile : fs.file = none) (hio : fs.ioFail = true) (hac : st.is_auto_commit = true)
    (hp : st.pwd = none ∨ ∃ p, st.pwd = some p ∧ p.length = 32)
    (hnod : ∀ e ∈ st.storage, ((e.2).map Prod.fst).Nodup) :
    ∃ blob e1 st1 e2 st2 e3 st3,
      ns_put st fs ns k v = some (Except.error e1, st1, fs) ∧
      e1.error = ErrorType.FileError ∧
      List.lookup k (nsData st1 ns) = some blob ∧
      ns_delete st1 fs ns k = (Except.error e2, st2, fs) ∧
      e2.error = ErrorType.FileError ∧
      List.lookup k (nsData st2 ns) = none ∧
      ns_clear st2 fs ns = (Except.error e3, st3, fs) ∧
      e3.error = ErrorType.FileError ∧
      nsData st3 ns = [] := by
  obtain ⟨blob, henc⟩ := encode_value_isSome v st.pwd st.nonce hp
  have hd0nod : ((nsData (lock_state st fs ns) ns).map Prod.fst).Nodup := by
    rw [nsData_lock_state_no_file st fs ns hfile]
    exact nsData_nodup st ns hnod
  obtain ⟨rest, hrk, hdata1⟩ :=
    ns_put_state_spec (lock_state st fs ns) ns k blob hd0nod
  have hac1 : (withStorage (lock_state st fs ns)
      (putStorage (lock_state st fs ns) ns k blob)).is_auto_commit = true := by
    rw [withStorage_lock_is_auto_commit]
    exact hac
  obtain ⟨e1, hstep1, he1⟩ := ns_commit_step_fail _ fs hac1 hio
  have hput : ns_put st fs ns k v = some (Except.error e1,
      withStorage (lock_state st fs ns) (putStorage (lock_state st fs ns) ns k blob),
      fs) := by
    unfold ns_put
    have henc2 : encode_value v (lock_state st fs ns).pwd
        (lock_state st fs ns).nonce = some blob := by
      rw [lock_state_pwd, lock_state_nonce]
      exact henc
    simp only [henc2]
    rw [hstep1]
  have hlook1 : List.lookup k (nsData (withStorage (lock_state st fs ns)
      (putStorage (lock_state st fs ns) ns k blob)) ns) = some blob := by
    rw [hdata1, lookup_append_right k _ _ hrk]
    exact lookup_cons_eq k (k, blob) [] rfl
  -- the state handed to delete
  have hlock1 : lock_state (withStorage (lock_state st fs ns)
      (putStorage (lock_state st fs ns) ns k blob)) fs ns =
      withStorage (lock_state st fs ns) (putStorage (lock_state st fs ns) ns k blob) :=
    lock_state_of_contains _ fs ns hfile (contains_put_state _ ns k blob)
  have hac2 : (withStorage (lock_state (withStorage (lock_state st fs ns)
      (putStorage (lock_state st fs ns) ns k blob)) fs ns)
      (deleteStorage (lock_state (withStorage (lock_state st fs ns)
        (putStorage (lock_state st fs ns) ns k blob)) fs ns) ns k)).is_auto_commit =
      true := by
    rw [withStorage_lock_is_auto_commit, withStorage_lock_is_auto_commit]
    exact hac
  obtain ⟨e2, hstep2, he2⟩ := ns_commit_step_fail _ fs hac2 hio
  have hdel : ns_delete (withStorage (lock_state st fs ns)
      (putStorage (lock_state st fs ns) ns k blob)) fs ns k =
      (Except.error e2,
        withStorage (lock_state (withStorage (lock_state st fs ns)
          (putStorage (lock_state st fs ns) ns k blob)) fs ns)
          (deleteStorage (lock_state (withStorage (lock_state st fs ns)
            (putStorage (lock_state st fs ns) ns k blob)) fs ns) ns k),
        fs) := by
    unfold ns_delete
    rw [hstep2]
  have hlook2 : List.lookup k (nsData (withStorage (lock_state (withStorage
      (lock_state st fs ns) (putStorage (lock_state st fs ns) ns k blob)) fs ns)
      (deleteStorage (lock_state (withStorage (lock_state st fs ns)
        (putStorage (lock_state st fs ns) ns k blob)) fs ns) ns k)) ns) = none := by
    rw [nsData_delete_state, hlock1, hdata1, kvSwapRemove_append_self k blob _ hrk]
    exact lookup_none_of_not_mem_fst k _ hrk
  -- the state handed to clear
  have hac3 : (withStorage (lock_state (withStorage (lock_state (withStorage
      (lock_state st fs ns) (putStorage (lock_state st fs ns) ns k blob)) fs ns)
      (deleteStorage (lock_state (withStorage (lock_state st fs ns)
        (putStorage (lock_state st fs ns) ns k blob)) fs ns) ns k)) fs ns)
      (clearStorage (lock_state (withStorage (lock_state (withStorage
        (lock_state st fs ns) (putStorage (lock_state st fs ns) ns k blob)) fs ns)
        (deleteStorage (lock_state (withStorage (lock_state st fs ns)
          (putStorage (lock_state st fs ns) ns k blob)) fs ns) ns k)) fs ns)
        ns)).is_auto_commit = true := by
    rw [withStorage_lock_is_auto_commit, withStorage_lock_is_auto_commit,
      withStorage_lock_is_auto_commit]
    exact hac
  obtain ⟨e3, hstep3, he3⟩ := ns_commit_step_fail _ fs hac3 hio
  exact ⟨blob, e1, _, e2, _, e3, _, hput, he1, hlook1, hdel, he2, hlook2,
    hstep3, he3, nsData_clear_state _ ns⟩

/-- C10 witness: the non-atomic auto-commit at the concrete store with
auto-commit on and failing I/O. -/
theorem C10_auto_commit_not_atomic_witness :
    egFSio.file = none ∧ egFSio.ioFail = true ∧
    egStoreAuto.is_auto_commit = true ∧
    (egStoreAuto.pwd = none ∨ ∃ p, egStoreAuto.pwd = some p ∧ p.length = 32) ∧
    (∀ e ∈ egStoreAuto.storage, ((e.2).map Prod.fst).Nodup) ∧
    ∃ blob e1 st1 e2 st2 e3 st3,
      ns_put egStoreAuto egFSio "n" "k" JValue.null = some (Except.error e1, st1, egFSio) ∧
      e1.error = ErrorType.FileError ∧
      List.lookup "k" (nsData st1 "n") = some blob ∧
      ns_delete st1 egFSio "n" "k" = (Except.error e2, st2, egFSio) ∧
      e2.error = ErrorType.FileError ∧
      List.lookup "k" (nsData st2 "n") = none ∧
      ns_clear st2 egFSio "n" = (Except.error e3, st3, egFSio) ∧
      e3.error = ErrorType.FileError ∧
      nsData st3 "n" = [] :=
  ⟨rfl, rfl, rfl, Or.inl rfl, by decide,
    C10_auto_commit_not_atomic egStoreAuto egFSio "n" "k" JValue.null rfl rfl rfl
      (Or.inl rfl) (by decide)⟩

/-- C4: put(k,v1) then put(k,v2) leaves get(k) = Some v2 with k appearing
exactly once in keys(); the re-insert behaves as remove-then-insert — the
old slot is vacated by the swap-remove and the key re-appended at the end —
not as an in-place update. -/
theorem C4_put_replace (st : MicroKV030) (fs : FileSys) (ns k : String)
    (v1 v2 : JValue)
    (hfile : fs.file = none) (hac : st.is_auto_commit = false)
    (hp : st.pwd = none ∨ ∃ p, st.pwd = some p ∧ p.length = 32)
    (hlen2 : (jserValue v2).length < 2 ^ 64)
    (hnod : ∀ e ∈ st.storage, ((e.2).map Prod.fst).Nodup) :
    ∃ st1 st2,
      ns_put st fs ns k v1 = some (Except.ok (), st1, fs) ∧
      ns_put st1 fs ns k v2 = some (Except.ok (), st2, fs) ∧
      (ns_get st2 fs ns k).1 = Except.ok (some v2) ∧
      List.count k (ns_keys st2 fs ns).1 = 1 ∧
      (ns_keys st2 fs ns).1 = listSwapRemove k (ns_keys st1 fs ns).1 ++ [k] := by
  obtain ⟨blob1, henc1⟩ := encode_value_isSome v1 st.pwd st.nonce hp
  obtain ⟨blob2, henc2, hdec2⟩ := decode_value_encode_value v2 st.pwd st.nonce hp hlen2
  obtain ⟨st1, hput1, hst1⟩ : ∃ st1,
      ns_put st fs ns k v1 = some (Except.ok (), st1, fs) ∧
      st1 = withStorage (lock_state st fs ns)
        (putStorage (lock_state st fs ns) ns k blob1) :=
    ⟨_, ns_put_eq st fs ns k v1 blob1 henc1 hac, rfl⟩
  have hpwd1 : st1.pwd = st.pwd := by
    rw [hst1]
    exact withStorage_lock_pwd st fs ns _
  have hnon1 : st1.nonce = st.nonce := by
    rw [hst1]
    exact withStorage_lock_nonce st fs ns _
  have hac1 : st1.is_auto_commit = false := by
    rw [hst1, withStorage_lock_is_auto_commit]
    exact hac
  have henc2b : encode_value v2 st1.pwd st1.nonce = some blob2 := by
    rw [hpwd1, hnon1]
    exact henc2
  obtain ⟨st2, hput2, hst2⟩ : ∃ st2,
      ns_put st1 fs ns k v2 = some (Except.ok (), st2, fs) ∧
      st2 = withStorage (lock_state st1 fs ns)
        (putStorage (lock_state st1 fs ns) ns k blob2) :=
    ⟨_, ns_put_eq st1 fs ns k v2 blob2 henc2b hac1, rfl⟩
  have hd0nod : ((nsData (lock_state st fs ns) ns).map Prod.fst).Nodup := by
    rw [nsData_lock_state_no_file st fs ns hfile]
    exact nsData_nodup st ns hnod
  obtain ⟨rest, hrk, hdata1⟩ :=
    ns_put_state_spec (lock_state st fs ns) ns k blob1 hd0nod
  have hlock1 : lock_state st1 fs ns = st1 := by
    rw [hst1]
    exact lock_state_of_contains _ fs ns hfile (contains_put_state _ ns k blob1)
  have hd1 : nsData (lock_state st1 fs ns) ns = rest ++ [(k, blob1)] := by
    rw [hlock1, hst1]
    exact hdata1
  have hcont2 : kvContains k (nsData (lock_state st1 fs ns) ns) = true := by
    rw [hd1]
    exact kvContains_append_self k blob1 rest
  have hdata2 : nsData st2 ns = rest ++ [(k, blob2)] := by
    rw [hst2, nsData_put_state, if_pos hcont2, hd1,
      kvSwapRemove_append_self k blob1 _ hrk]
    exact kvInsert_of_not_mem k blob2 _ hrk
  have hlock2 : lock_state st2 fs ns = st2 := by
    rw [hst2]
    exact lock_state_of_contains _ fs ns hfile (contains_put_state _ ns k blob2)
  have hget : (ns_get st2 fs ns k).1 = Except.ok (some v2) := by
    unfold ns_get
    have hlk : List.lookup k (nsData (lock_state st2 fs ns) ns) = some blob2 := by
      rw [hlock2, hdata2, lookup_append_right k _ _ hrk]
      exact lookup_cons_eq k (k, blob2) [] rfl
    have hpwd2 : (lock_state st2 fs ns).pwd = st.pwd := by
      rw [lock_state_pwd, hst2, withStorage_lock_pwd]
      exact hpwd1
    have hnonce2 : (lock_state st2 fs ns).nonce = st.nonce := by
      rw [lock_state_nonce, hst2, withStorage_lock_nonce]
      exact hnon1
    simp only [hlk, hpwd2, hnonce2, hdec2]
  have hkeys2 : (ns_keys st2 fs ns).1 = rest.map Prod.fst ++ [k] := by
    rw [ns_keys_val, hlock2, hdata2, List.map_append]
    rfl
  have hkeys1 : (ns_keys st1 fs ns).1 = rest.map Prod.fst ++ [k] := by
    rw [ns_keys_val, hd1, List.map_append]
    rfl
  refine ⟨st1, st2, hput1, hput2, hget, ?_, ?_⟩
  · rw [hkeys2, List.count_append, List.count_eq_zero.mpr hrk]
    simp
  · rw [hkeys2, hkeys1, listSwapRemove_append_self k _ hrk]

/-- C4 witness: the double put at a concrete store, key and values. -/
theorem C4_put_replace_witness :
    egFS.file = none ∧ egStore.is_auto_commit = false ∧
    (egStore.pwd = none ∨ ∃ p, egStore.pwd = some p ∧ p.length = 32) ∧
    (jserValue egValue).length < 2 ^ 64 ∧
    (∀ e ∈ egStore.storage, ((e.2).map Prod.fst).Nodup) ∧
    ∃ st1 st2,
      ns_put egStore egFS "n" "a" JValue.null = some (Except.ok (), st1, egFS) ∧
      ns_put st1 egFS "n" "a" egValue = some (Except.ok (), st2, egFS) ∧
      (ns_get st2 egFS "n" "a").1 = Except.ok (some egValue) ∧
      List.count "a" (ns_keys st2 egFS "n").1 = 1 ∧
      (ns_keys st2 egFS "n").1 = listSwapRemove "a" (ns_keys st1 egFS "n").1 ++ ["a"] :=
  ⟨rfl, rfl, Or.inl rfl, by rw [egValue_len]; norm_num, by decide,
    C4_put_replace egStore egFS "n" "a" JValue.null egValue rfl rfl (Or.inl rfl)
      (by rw [egValue_len]; norm_num) (by decide)⟩

/-- C9: putting (A, k, v1) and then (B, k, v2) into distinct namespaces
leaves get(A, k) = v1 and get(B, k) = v2, and every namespace other than A
and B is untouched by the two writes. -/
theorem C9_namespace_isolation (st : MicroKV030) (fs : FileSys) (A B k : String)
    (v1 v2 : JValue)
    (hfile : fs.file = none) (hac : st.is_auto_commit = false)
    (hp : st.pwd = none ∨ ∃ p, st.pwd = some p ∧ p.length = 32)
    (hlen1 : (jserValue v1).length < 2 ^ 64) (hlen2 : (jserValue v2).length < 2 ^ 64)
    (hAB : A ≠ B) :
    ∃ st1 st2,
      ns_put st fs A k v1 = some (Except.ok (), st1, fs) ∧
      ns_put st1 fs B k v2 = some (Except.ok (), st2, fs) ∧
      (ns_get st2 fs A k).1 = Except.ok (some v1) ∧
      (ns_get st2 fs B k).1 = Except.ok (some v2) ∧
      (∀ C, C ≠ A → C ≠ B → List.lookup C st2.storage = List.lookup C st.storage) := by
  obtain ⟨blob1, henc1, hdec1⟩ := decode_value_encode_value v1 st.pwd st.nonce hp hlen1
  obtain ⟨blob2, henc2, hdec2⟩ := decode_value_encode_value v2 st.pwd st.nonce hp hlen2
  obtain ⟨st1, hput1, hst1⟩ : ∃ st1,
      ns_put st fs A k v1 = some (Except.ok (), st1, fs) ∧
      st1 = withStorage (lock_state st fs A)
        (putStorage (lock_state st fs A) A k blob1) :=
    ⟨_, ns_put_eq st fs A k v1 blob1 henc1 hac, rfl⟩
  have hpwd1 : st1.pwd = st.pwd := by
    rw [hst1]
    exact withStorage_lock_pwd st fs A _
  have hnon1 : st1.nonce = st.nonce := by
    rw [hst1]
    exact withStorage_lock_nonce st fs A _
  have hac1 : st1.is_auto_commit = false := by
    rw [hst1, withStorage_lock_is_auto_commit]
    exact hac
  have henc2b : encode_value v2 st1.pwd st1.nonce = some blob2 := by
    rw [hpwd1, hnon1]
    exact henc2
  obtain ⟨st2, hput2, hst2⟩ : ∃ st2,
      ns_put st1 fs B k v2 = some (Except.ok (), st2, fs) ∧
      st2 = withStorage (lock_state st1 fs B)
        (putStorage (lock_state st1 fs B) B k blob2) :=
    ⟨_, ns_put_eq st1 fs B k v2 blob2 henc2b hac1, rfl⟩
  have hpwd2 : st2.pwd = st.pwd := by
    rw [hst2, withStorage_lock_pwd]
    exact hpwd1
  have hnon2 : st2.nonce = st.nonce := by
    rw [hst2, withStorage_lock_nonce]
    exact hnon1
  have hgetB : (ns_get st2 fs B k).1 = Except.ok (some v2) := by
    unfold ns_get
    have hlock2 : lock_state st2 fs B = st2 := by
      rw [hst2]
      exact lock_state_of_contains _ fs B hfile (contains_put_state _ B k blob2)
    have hlkB : List.lookup k (nsData (lock_state st2 fs B) B) = some blob2 := by
      rw [hlock2, hst2, nsData_put_state]
      exact lookup_kvInsert_self k blob2 _
    have hpw : (lock_state st2 fs B).pwd = st.pwd := by
      rw [lock_state_pwd]
      exact hpwd2
    have hno : (lock_state st2 fs B).nonce = st.nonce := by
      rw [lock_state_nonce]
      exact hnon2
    simp only [hlkB, hpw, hno, hdec2]
  have hlkA1 : List.lookup A st2.storage = List.lookup A st1.storage := by
    rw [hst2]
    have h1 : List.lookup A (withStorage (lock_state st1 fs B)
        (putStorage (lock_state st1 fs B) B k blob2)).storage =
        List.lookup A (lock_state st1 fs B).storage :=
      lookup_regInsert_ne B A _ _ hAB
    rw [h1]
    exact lock_state_lookup_ne_no_file st1 fs B A hfile hAB
  have hlkA2 : List.lookup A st1.storage = some (kvInsert k blob1
      (if kvContains k (nsData (lock_state st fs A) A) then
        kvSwapRemove k (nsData (lock_state st fs A) A)
      else nsData (lock_state st fs A) A)) := by
    rw [hst1]
    exact lookup_regInsert_self A _ (lock_state st fs A).storage
  have hgetA : (ns_get st2 fs A k).1 = Except.ok (some v1) := by
    unfold ns_get
    have hlkA : List.lookup k (nsData (lock_state st2 fs A) A) = some blob1 := by
      rw [nsData_lock_state_no_file st2 fs A hfile]
      unfold nsData
      rw [hlkA1, hlkA2]
      exact lookup_kvInsert_self k blob1 _
    have hpw : (lock_state st2 fs A).pwd = st.pwd := by
      rw [lock_state_pwd]
      exact hpwd2
    have hno : (lock_state st2 fs A).nonce = st.nonce := by
      rw [lock_state_nonce]
      exact hnon2
    simp only [hlkA, hpw, hno, hdec1]
  refine ⟨st1, st2, hput1, hput2, hgetA, hgetB, ?_⟩
  intro C hCA hCB
  have h1 : List.lookup C st2.storage = List.lookup C (lock_state st1 fs B).storage := by
    rw [hst2]
    exact lookup_regInsert_ne B C _ _ hCB
  have h2 : List.lookup C (lock_state st1 fs B).storage = List.lookup C st1.storage :=
    lock_state_lookup_ne_no_file st1 fs B C hfile hCB
  have h3 : List.lookup C st1.storage = List.lookup C (lock_state st fs A).storage := by
    rw [hst1]
    exact lookup_regInsert_ne A C _ _ hCA
  have h4 : List.lookup C (lock_state st fs A).storage = List.lookup C st.storage :=
    lock_state_lookup_ne_no_file st fs A C hfile hCA
  rw [h1, h2, h3, h4]

/-- C9 witness: the cross-namespace puts at concrete namespaces and key. -/
theorem C9_namespace_isolation_witness :
    egFS.file = none ∧ egStore.is_auto_commit = false ∧
    (egStore.pwd = none ∨ ∃ p, egStore.pwd = some p ∧ p.length = 32) ∧
    (jserValue JValue.null).length < 2 ^ 64 ∧
    (jserValue egValue).length < 2 ^ 64 ∧
    ("n1" : String) ≠ "n2" ∧
    ∃ st1 st2,
      ns_put egStore egFS "n1" "k" JValue.null = some (Except.ok (), st1, egFS) ∧
      ns_put st1 egFS "n2" "k" egValue = some (Except.ok (), st2, egFS) ∧
      (ns_get st2 egFS "n1" "k").1 = Except.ok (some JValue.null) ∧
      (ns_get st2 egFS "n2" "k").1 = Except.ok (some egValue) ∧
      (∀ C, C ≠ "n1" → C ≠ "n2" →
        List.lookup C st2.storage = List.lookup C egStore.storage) :=
  ⟨rfl, rfl, Or.inl rfl, by rw [egNull_len]; norm_num, by rw [egValue_len]; norm_num,
    by decide,
    C9_namespace_isolation egStore egFS "n1" "n2" "k" JValue.null egValue rfl rfl
      (Or.inl rfl) (by rw [egNull_len]; norm_num) (by rw [egValue_len]; norm_num)
      (by decide)⟩

end MicroKV
